import Mathlib

/-!
Verification development for the concurrent request-dispatch core described in
the repository specification: the bounded TTL cache with exact counters
(UsageCache), the deployment registry with its id-to-position index, the
per-request retry coordinator, the memoized group-info reader, and the
fail-closed rate limiter.  The repository ships only the test-suite for these
components, so each component is modelled here from the specification text
(doc comments say what is modelled), with the repository's tests fixing the
behavior wherever they speak.
-/

namespace Litellm

/-! ## Association-list toolkit

The Python components keep their state in `dict`s; we model each `dict` as an
association list with natural-number keys, insertion order preserved, together
with a no-duplicate-keys invariant. -/

abbrev Key := Nat

/-- First value stored under key `k`, if any (models Python `d.get(k)`). -/
def alookup {α : Type} : List (Key × α) → Key → Option α
  | [], _ => none
  | (k', v) :: rest, k => if k' = k then some v else alookup rest k

/-- Overwrite the value under `k` in place, or append `(k, v)` if `k` is
absent (models Python `d[k] = v`). -/
def aupdate {α : Type} : List (Key × α) → Key → α → List (Key × α)
  | [], k, v => [(k, v)]
  | (k', v') :: rest, k, v =>
      if k' = k then (k, v) :: rest else (k', v') :: aupdate rest k v

/-- Remove every entry with key `k` (models Python `d.pop(k, None)`). -/
def aerase {α : Type} (l : List (Key × α)) (k : Key) : List (Key × α) :=
  l.filter (fun p => decide (p.1 ≠ k))

theorem alookup_nil {α : Type} (k : Key) : alookup ([] : List (Key × α)) k = none := rfl

theorem alookup_cons {α : Type} (k0 k : Key) (v0 : α) (rest : List (Key × α)) :
    alookup ((k0, v0) :: rest) k = if k0 = k then some v0 else alookup rest k := rfl

theorem aupdate_cons {α : Type} (k0 k : Key) (v0 v : α) (rest : List (Key × α)) :
    aupdate ((k0, v0) :: rest) k v =
      if k0 = k then (k, v) :: rest else (k0, v0) :: aupdate rest k v := rfl

theorem alookup_aupdate_self {α : Type} (l : List (Key × α)) (k : Key) (v : α) :
    alookup (aupdate l k v) k = some v := by
  induction l with
  | nil => simp [aupdate, alookup]
  | cons p rest ih =>
      obtain ⟨k', v'⟩ := p
      by_cases h : k' = k
      · simp [aupdate_cons, h, alookup]
      · simp [aupdate_cons, h, alookup_cons, ih]

theorem alookup_aupdate_ne {α : Type} (l : List (Key × α)) (k k' : Key) (v : α)
    (h : k' ≠ k) : alookup (aupdate l k v) k' = alookup l k' := by
  have hne : k ≠ k' := Ne.symm h
  induction l with
  | nil => simp [aupdate, alookup, hne]
  | cons p rest ih =>
      obtain ⟨k0, v0⟩ := p
      by_cases hk : k0 = k
      · subst hk
        simp [aupdate_cons, alookup_cons, hne, if_neg hne]
      · simp [aupdate_cons, hk, alookup_cons, ih]

theorem alookup_aerase_self {α : Type} (l : List (Key × α)) (k : Key) :
    alookup (aerase l k) k = none := by
  induction l with
  | nil => simp [aerase, alookup]
  | cons p rest ih =>
      obtain ⟨k0, v0⟩ := p
      by_cases hk : k0 = k
      · simpa [aerase, hk] using ih
      · simpa [aerase, hk, alookup_cons] using ih

theorem alookup_aerase_ne {α : Type} (l : List (Key × α)) (k k' : Key)
    (h : k' ≠ k) : alookup (aerase l k) k' = alookup l k' := by
  induction l with
  | nil => simp [aerase]
  | cons p rest ih =>
      obtain ⟨k0, v0⟩ := p
      by_cases hk : k0 = k
      · subst hk
        have hkk' : ¬ k0 = k' := Ne.symm h
        simpa [aerase, alookup_cons, hkk'] using ih
      · by_cases hk' : k0 = k'
        · subst hk'
          simp [aerase, hk, alookup_cons]
        · simpa [aerase, hk, alookup_cons, hk'] using ih

theorem alookup_eq_none_iff {α : Type} (l : List (Key × α)) (k : Key) :
    alookup l k = none ↔ k ∉ l.map Prod.fst := by
  induction l with
  | nil => simp [alookup]
  | cons p rest ih =>
      obtain ⟨k0, v0⟩ := p
      by_cases hk : k0 = k
      · subst hk
        simp [alookup_cons]
      · have hk' : ¬ (k : Key) = k0 := Ne.symm hk
        simp [alookup_cons, hk, ih, hk']

theorem alookup_isSome_iff {α : Type} (l : List (Key × α)) (k : Key) :
    (alookup l k).isSome = true ↔ k ∈ l.map Prod.fst := by
  constructor
  · intro h
    by_contra hmem
    rw [(alookup_eq_none_iff l k).mpr hmem] at h
    simp at h
  · intro hmem
    cases hcase : alookup l k with
    | none => exact absurd hmem ((alookup_eq_none_iff l k).mp hcase)
    | some v => simp

theorem alookup_mem {α : Type} (l : List (Key × α)) (k : Key) (v : α)
    (h : alookup l k = some v) : (k, v) ∈ l := by
  induction l with
  | nil => simp [alookup] at h
  | cons p rest ih =>
      obtain ⟨k0, v0⟩ := p
      by_cases hk : k0 = k
      · subst hk
        rw [alookup_cons, if_pos rfl] at h
        cases h
        exact List.mem_cons_self _ _
      · rw [alookup_cons, if_neg hk] at h
        exact List.mem_cons_of_mem _ (ih h)

theorem mem_alookup {α : Type} (l : List (Key × α)) (k : Key) (v : α)
    (hnd : (l.map Prod.fst).Nodup) (h : (k, v) ∈ l) : alookup l k = some v := by
  induction l with
  | nil => simp at h
  | cons p rest ih =>
      obtain ⟨k0, v0⟩ := p
      simp only [List.map_cons, List.nodup_cons] at hnd
      rcases List.mem_cons.mp h with h1 | h1
      · cases h1
        simp [alookup_cons]
      · have hk0 : k0 ≠ k := by
          intro hEq
          subst hEq
          exact hnd.1 (List.mem_map.mpr ⟨(k0, v), h1, rfl⟩)
        rw [alookup_cons, if_neg hk0]
        exact ih hnd.2 h1

theorem mem_aupdate_cases {α : Type} (l : List (Key × α)) (k : Key) (v : α)
    (p : Key × α) (h : p ∈ aupdate l k v) : p = (k, v) ∨ p ∈ l := by
  induction l with
  | nil =>
      simp [aupdate] at h
      exact Or.inl h
  | cons q rest ih =>
      obtain ⟨k0, v0⟩ := q
      by_cases hk : k0 = k
      · rw [aupdate_cons, if_pos hk] at h
        rcases List.mem_cons.mp h with h1 | h1
        · exact Or.inl h1
        · exact Or.inr (List.mem_cons_of_mem _ h1)
      · rw [aupdate_cons, if_neg hk] at h
        rcases List.mem_cons.mp h with h1 | h1
        · exact Or.inr (h1 ▸ List.mem_cons_self _ _)
        · rcases ih h1 with h2 | h2
          · exact Or.inl h2
          · exact Or.inr (List.mem_cons_of_mem _ h2)

theorem aupdate_keys_nodup {α : Type} (l : List (Key × α)) (k : Key) (v : α)
    (h : (l.map Prod.fst).Nodup) : ((aupdate l k v).map Prod.fst).Nodup := by
  induction l with
  | nil => simp [aupdate]
  | cons p rest ih =>
      obtain ⟨k0, v0⟩ := p
      simp only [List.map_cons, List.nodup_cons] at h
      by_cases hk : k0 = k
      · subst hk
        rw [aupdate_cons, if_pos rfl]
        simp only [List.map_cons, List.nodup_cons]
        exact ⟨h.1, h.2⟩
      · rw [aupdate_cons, if_neg hk]
        simp only [List.map_cons, List.nodup_cons]
        refine ⟨?_, ih h.2⟩
        intro hmem
        rcases List.mem_map.mp hmem with ⟨q, hq, hfst⟩
        rcases mem_aupdate_cases rest k v q hq with h1 | h1
        · exact hk (by rw [← hfst, h1])
        · exact h.1 (List.mem_map.mpr ⟨q, h1, hfst⟩)

theorem aerase_sublist {α : Type} (l : List (Key × α)) (k : Key) :
    List.Sublist (aerase l k) l :=
  List.filter_sublist l

theorem aerase_keys_nodup {α : Type} (l : List (Key × α)) (k : Key)
    (h : (l.map Prod.fst).Nodup) : ((aerase l k).map Prod.fst).Nodup :=
  ((aerase_sublist l k).map Prod.fst).nodup h

theorem mem_aerase {α : Type} (l : List (Key × α)) (k : Key) (p : Key × α) :
    p ∈ aerase l k ↔ p ∈ l ∧ p.1 ≠ k := by
  simp [aerase, List.mem_filter]

theorem aupdate_length_of_mem {α : Type} (l : List (Key × α)) (k : Key) (v : α)
    (h : (alookup l k).isSome = true) : (aupdate l k v).length = l.length := by
  induction l with
  | nil => simp [alookup] at h
  | cons p rest ih =>
      obtain ⟨k0, v0⟩ := p
      by_cases hk : k0 = k
      · rw [aupdate_cons, if_pos hk]
        simp
      · rw [alookup_cons, if_neg hk] at h
        rw [aupdate_cons, if_neg hk]
        simp [ih h]

/-! ## UsageCache

Modelled from the spec: `litellm.caching.in_memory_cache.InMemoryCache` is not
shipped in `src/` (only its tests are), so the cache is reconstructed from
spec §4.4 ("UsageCache") and §3 ("CacheEntry", "ExpirationHeap"), with the
repository's tests (`test_in_memory_cache.py`, `test_in_memory_cache_concurrent.py`)
fixing the behavior wherever they speak: values are stored in `cache_dict`,
expirations in the side map `ttl_dict`, and a lazily-purged min-heap
`expiration_heap` of `(expiration, key)` pairs drives eviction.  Timestamps
are naturals; a key with expiration `e` is expired at time `now` iff `e < now`
(Python `now > self.ttl_dict[key]`). -/

abbrev Time := Nat

/-- Cache values; counters are numeric so we store integers. -/
abbrev Val := Int

structure UsageCache where
  max_size_in_memory : Nat
  cache_dict : List (Key × Val)
  ttl_dict : List (Key × Time)
  expiration_heap : List (Time × Key)
deriving DecidableEq

/-- A cache with no entries and the given size bound. -/
def emptyCache (maxSize : Nat) : UsageCache :=
  ⟨maxSize, [], [], []⟩

/-- Modelled from the spec: lazy per-key expiry test — the key is expired when
its scheduled expiration lies strictly in the past. -/
def expiredAt (now : Time) (c : UsageCache) (k : Key) : Bool :=
  match alookup c.ttl_dict k with
  | some e => decide (e < now)
  | none => false

/-- Modelled from the spec: schedule `now + ttl` for `key` in the side
expiration map and push the pair onto the expiration heap. -/
def pushTtl (now : Time) (key : Key) (ttl : Time) (c : UsageCache) : UsageCache :=
  { c with ttl_dict := aupdate c.ttl_dict key (now + ttl),
           expiration_heap := c.expiration_heap ++ [(now + ttl, key)] }

/-- Lexicographic order on heap pairs `(expiration, key)`; ties on the
expiration are broken deterministically by key order (spec §9 allows any
deterministic tie-break). -/
def pairLeB (p q : Time × Key) : Bool :=
  decide (p.1 < q.1) || (decide (p.1 = q.1) && decide (p.2 ≤ q.2))

/-- Pop the minimum `(expiration, key)` pair (models `heapq.heappop`). -/
def heapPop : List (Time × Key) → Option ((Time × Key) × List (Time × Key))
  | [] => none
  | p :: rest =>
      match heapPop rest with
      | none => some (p, [])
      | some (m, rest') =>
          if pairLeB p m then some (p, rest) else some (m, p :: rest')

/-- Modelled from the spec: purge every already-expired entry from the value
store and the side expiration map (stale heap pairs are discarded lazily at
pop time, not here). -/
def purgeExpired (now : Time) (c : UsageCache) : UsageCache :=
  { c with cache_dict := c.cache_dict.filter (fun p => ! expiredAt now c p.1),
           ttl_dict := c.ttl_dict.filter (fun p => ! decide (p.2 < now)) }

/-- Evict key `k` from both structures, continuing with heap remainder `h`. -/
def evictKey (c : UsageCache) (k : Key) (h : List (Time × Key)) : UsageCache :=
  { c with cache_dict := aerase c.cache_dict k,
           ttl_dict := aerase c.ttl_dict k,
           expiration_heap := h }

/-- Discard a stale popped pair, keeping only the heap remainder `h`. -/
def dropHeap (c : UsageCache) (h : List (Time × Key)) : UsageCache :=
  { c with expiration_heap := h }

/-- Modelled from the spec: while still over the bound, pop the heap, validate
the popped pair against the side expiration map, discard it if stale, and
otherwise evict that key; the fuel argument bounds the loop by the heap
length. -/
def evictLoop (now : Time) : Nat → UsageCache → UsageCache
  | 0, c => c
  | fuel + 1, c =>
      if c.max_size_in_memory < c.cache_dict.length then
        match heapPop c.expiration_heap with
        | none => c
        | some ((e, k), h) =>
            if alookup c.ttl_dict k = some e then
              evictLoop now fuel (evictKey c k h)
            else
              evictLoop now fuel (dropHeap c h)
      else c

/-- Modelled from the spec (§4.4 Eviction): purge all expired entries first;
if still over the bound, evict live entries in earliest-expiration order via
the heap. -/
def evictCache (now : Time) (c : UsageCache) : UsageCache :=
  let c1 := purgeExpired now c
  evictLoop now c1.expiration_heap.length c1

/-- Store `value` under `key` in the value store (Python `cache_dict[key] = value`). -/
def setValue (key : Key) (value : Val) (c : UsageCache) : UsageCache :=
  { c with cache_dict := aupdate c.cache_dict key value }

/-- Python `key not in self.ttl_dict or now > self.ttl_dict[key]`: a fresh
expiration is assigned only when the key is new or its previous expiration has
already passed. -/
def shouldReschedule (now : Time) (key : Key) (c : UsageCache) : Bool :=
  match alookup c.ttl_dict key with
  | some e => decide (e < now)
  | none => true

/-- Modelled from the spec (§4.4 `set`, expiration half): assign a fresh
expiration `now + ttl` only when the key is new or its previous expiration has
already passed; otherwise keep the original expiration (first-write-wins while
live; the repository's test `test_in_memory_cache_ttl_allow_override` fixes
the expired-override case). -/
def scheduleTtl (now : Time) (key : Key) (ttl : Time) (c : UsageCache) : UsageCache :=
  if shouldReschedule now key c then pushTtl now key ttl c else c

/-- Evict only when the write pushed the cache over its size bound. -/
def maybeEvict (now : Time) (c : UsageCache) : UsageCache :=
  if c.max_size_in_memory < c.cache_dict.length then evictCache now c else c

/-- Modelled from the spec (§4.4 `set`): overwrite the stored value, schedule
the expiration per the first-write-wins rule, then evict if the write pushed
the cache over its size bound. -/
def setCache (now : Time) (key : Key) (value : Val) (ttl : Time) (c : UsageCache) :
    UsageCache :=
  maybeEvict now (scheduleTtl now key ttl (setValue key value c))

/-- Lazily purge one key from the value store and the side expiration map. -/
def purgeKey (c : UsageCache) (key : Key) : UsageCache :=
  { c with cache_dict := aerase c.cache_dict key,
           ttl_dict := aerase c.ttl_dict key }

/-- Modelled from the spec (§4.4 `get`): if the key's expiration has passed,
purge it from both structures and report absent; otherwise return the stored
value without touching the expiration. -/
def getCache (now : Time) (key : Key) (c : UsageCache) : Option Val × UsageCache :=
  if expiredAt now c key then (none, purgeKey c key)
  else (alookup c.cache_dict key, c)

/-- Modelled from the spec (§4.4 `increment`): one atomic read-modify-write —
read the current value (0 when absent), add the delta, store the result; the
spec (§5) makes this sequence a single uninterruptible unit in every calling
style, so it is one step of the model. -/
def incrementCache (now : Time) (key : Key) (delta : Val) (ttl : Time)
    (c : UsageCache) : Val × UsageCache :=
  let r := getCache now key c
  let newVal := r.1.getD 0 + delta
  (newVal, setCache now key newVal ttl r.2)

/-- Run one `increment(key, delta)` per caller, in schedule order.  Each list
element is one caller; `true` stands for an OS thread, `false` for a
cooperative task — both run the same atomic increment because the spec (§5)
puts them in one lock domain.  Quantifying over every schedule captures every
interleaving of the atomic increments. -/
def runIncrements (now : Time) (key : Key) (delta : Val) (ttl : Time)
    (callers : List Bool) (c : UsageCache) : UsageCache :=
  callers.foldl (fun s _ => (incrementCache now key delta ttl s).2) c

/-- Repeated `set` calls on one key (models the heap-growth stress test). -/
def iterateSet (now : Time) (key : Key) (value : Val) (ttl : Time) :
    Nat → UsageCache → UsageCache
  | 0, c => c
  | n + 1, c => iterateSet now key value ttl n (setCache now key value ttl c)

/-- Number of heap pairs that agree with the side expiration map — the heap's
logical size (spec §3: at most one authoritative pair per key is trusted at
pop time). -/
def heapLogicalSize (c : UsageCache) : Nat :=
  (c.expiration_heap.filter
    (fun p => decide (alookup c.ttl_dict p.2 = some p.1))).length

/-- Occurrence count of a pair in a heap list (instance-stable `List.count`). -/
def pcount (a : Time × Key) (l : List (Time × Key)) : Nat :=
  l.countP (fun x => decide (x = a))

/-- Well-formedness of a cache state at time `now`: no duplicate keys in
either dict, the value store and the expiration map cover the same keys, each
live key has exactly one authoritative heap pair, and every non-authoritative
heap pair is already in the past. -/
structure WFAt (now : Time) (c : UsageCache) : Prop where
  cacheNodup : (c.cache_dict.map Prod.fst).Nodup
  ttlNodup : (c.ttl_dict.map Prod.fst).Nodup
  sameKeys : ∀ k, (alookup c.cache_dict k).isSome = (alookup c.ttl_dict k).isSome
  authCount : ∀ k e, alookup c.ttl_dict k = some e →
    pcount (e, k) c.expiration_heap = 1
  stalePast : ∀ k e', (e', k) ∈ c.expiration_heap →
    alookup c.ttl_dict k ≠ some e' → e' < now

/-! ### Toolkit lemmas about filtering association lists -/

theorem alookup_filter_none {α : Type} (l : List (Key × α)) (q : Key × α → Bool)
    (k : Key) (h : alookup l k = none) : alookup (l.filter q) k = none := by
  induction l with
  | nil => simp [alookup]
  | cons p rest ih =>
      obtain ⟨k0, v0⟩ := p
      by_cases hk : k0 = k
      · rw [alookup_cons, if_pos hk] at h
        cases h
      · rw [alookup_cons, if_neg hk] at h
        by_cases hq : q (k0, v0)
        · simpa [List.filter_cons, hq, alookup_cons, hk] using ih h
        · simpa [List.filter_cons, hq] using ih h

theorem alookup_filter {α : Type} (l : List (Key × α)) (q : Key × α → Bool)
    (k : Key) (hnd : (l.map Prod.fst).Nodup) :
    alookup (l.filter q) k =
      (alookup l k).bind (fun v => if q (k, v) then some v else none) := by
  induction l with
  | nil => simp [alookup]
  | cons p rest ih =>
      obtain ⟨k0, v0⟩ := p
      simp only [List.map_cons, List.nodup_cons] at hnd
      by_cases hk : k0 = k
      · subst hk
        have hnone : alookup rest k0 = none :=
          (alookup_eq_none_iff rest k0).mpr hnd.1
        by_cases hq : q (k0, v0)
        · simp [List.filter_cons, hq, alookup_cons]
        · simp [List.filter_cons, hq, alookup_cons, alookup_filter_none rest q k0 hnone]
      · by_cases hq : q (k0, v0)
        · simpa [List.filter_cons, hq, alookup_cons, hk] using ih hnd.2
        · simpa [List.filter_cons, hq, alookup_cons, hk] using ih hnd.2

/-! ### Heap-pop lemmas -/

/-- Propositional form of the heap order. -/
def pairLe (p q : Time × Key) : Prop :=
  p.1 < q.1 ∨ (p.1 = q.1 ∧ p.2 ≤ q.2)

theorem pairLeB_iff (p q : Time × Key) : pairLeB p q = true ↔ pairLe p q := by
  simp [pairLeB, pairLe]

theorem pairLe_refl (p : Time × Key) : pairLe p p := Or.inr ⟨rfl, le_refl _⟩

theorem pairLe_trans {p q r : Time × Key} (h1 : pairLe p q) (h2 : pairLe q r) :
    pairLe p r := by
  rcases h1 with h1 | ⟨h1a, h1b⟩
  · rcases h2 with h2 | ⟨h2a, h2b⟩
    · exact Or.inl (lt_trans h1 h2)
    · exact Or.inl (h2a ▸ h1)
  · rcases h2 with h2 | ⟨h2a, h2b⟩
    · exact Or.inl (h1a ▸ h2)
    · exact Or.inr ⟨h1a.trans h2a, le_trans h1b h2b⟩

theorem pairLe_total (p q : Time × Key) : pairLe p q ∨ pairLe q p := by
  rcases lt_trichotomy p.1 q.1 with h | h | h
  · exact Or.inl (Or.inl h)
  · rcases le_total p.2 q.2 with h2 | h2
    · exact Or.inl (Or.inr ⟨h, h2⟩)
    · exact Or.inr (Or.inr ⟨h.symm, h2⟩)
  · exact Or.inr (Or.inl h)

theorem pairLe_of_not_leB {p q : Time × Key} (h : pairLeB p q = false) :
    pairLe q p := by
  rcases pairLe_total p q with h1 | h1
  · exact absurd ((pairLeB_iff p q).mpr h1) (by simp [h])
  · exact h1

theorem heapPop_eq_none {l : List (Time × Key)} (h : heapPop l = none) : l = [] := by
  cases l with
  | nil => rfl
  | cons p rest =>
      rw [heapPop] at h
      rcases hr : heapPop rest with _ | ⟨m, rest'⟩
      · rw [hr] at h
        cases h
      · rw [hr] at h
        by_cases hle : pairLeB p m
        · simp [hle] at h
        · simp [hle] at h

theorem heapPop_spec {l : List (Time × Key)} {m : Time × Key}
    {l' : List (Time × Key)} (h : heapPop l = some (m, l')) :
    l.Perm (m :: l') ∧ ∀ x ∈ l, pairLe m x := by
  induction l generalizing m l' with
  | nil => cases h
  | cons p rest ih =>
      rw [heapPop] at h
      rcases hr : heapPop rest with _ | ⟨m0, rest0⟩
      · rw [hr] at h
        have hrest : rest = [] := heapPop_eq_none hr
        subst hrest
        cases h
        constructor
        · exact List.Perm.refl _
        · intro x hx
          rcases List.mem_cons.mp hx with hx | hx
          · exact hx ▸ pairLe_refl _
          · simp at hx
      · rw [hr] at h
        obtain ⟨hperm0, hmin0⟩ := ih hr
        simp only at h
        by_cases hle : pairLeB p m0
        · rw [if_pos hle] at h
          cases h
          constructor
          · exact List.Perm.refl _
          · intro x hx
            rcases List.mem_cons.mp hx with hx | hx
            · exact hx ▸ pairLe_refl _
            · exact pairLe_trans ((pairLeB_iff _ _).mp hle) (hmin0 x hx)
        · rw [if_neg hle] at h
          cases h
          constructor
          · exact (List.Perm.cons p hperm0).trans (List.Perm.swap m p rest0)
          · intro x hx
            rcases List.mem_cons.mp hx with hx | hx
            · exact hx ▸ pairLe_of_not_leB (Bool.eq_false_iff.mpr hle)
            · exact hmin0 x hx

theorem heapPop_length {l : List (Time × Key)} {m : Time × Key}
    {l' : List (Time × Key)} (h : heapPop l = some (m, l')) :
    l.length = l'.length + 1 := by
  have := (heapPop_spec h).1.length_eq
  simpa using this

theorem pcount_cons (a b : Time × Key) (l : List (Time × Key)) :
    pcount a (b :: l) = pcount a l + (if b = a then 1 else 0) := by
  simp [pcount, List.countP_cons]

theorem pcount_append (a : Time × Key) (l1 l2 : List (Time × Key)) :
    pcount a (l1 ++ l2) = pcount a l1 + pcount a l2 := by
  simp [pcount, List.countP_append]

theorem pcount_eq_zero (a : Time × Key) (l : List (Time × Key)) :
    pcount a l = 0 ↔ a ∉ l := by
  simp only [pcount, List.countP_eq_zero, decide_eq_true_eq]
  constructor
  · intro h hmem
    exact h a hmem rfl
  · intro h x hx hEq
    exact h (hEq ▸ hx)

theorem pcount_pos (a : Time × Key) (l : List (Time × Key)) :
    0 < pcount a l ↔ a ∈ l := by
  simp only [pcount, List.countP_pos_iff, decide_eq_true_eq]
  constructor
  · rintro ⟨x, hx, rfl⟩
    exact hx
  · intro h
    exact ⟨a, h, rfl⟩

theorem heapPop_pcount {l : List (Time × Key)} {m : Time × Key}
    {l' : List (Time × Key)} (h : heapPop l = some (m, l')) (a : Time × Key) :
    pcount a l = pcount a l' + (if m = a then 1 else 0) := by
  have hperm := (heapPop_spec h).1
  have h1 : pcount a l = pcount a (m :: l') :=
    hperm.countP_eq (fun x => decide (x = a))
  rw [h1, pcount_cons]

theorem heapPop_mem {l : List (Time × Key)} {m : Time × Key}
    {l' : List (Time × Key)} (h : heapPop l = some (m, l')) {x : Time × Key}
    (hx : x ∈ l') : x ∈ l := by
  have hperm := (heapPop_spec h).1
  exact hperm.mem_iff.mpr (List.mem_cons_of_mem _ hx)

/-! ### Purging lemmas -/

theorem expiredAt_iff (now : Time) (c : UsageCache) (k : Key) :
    expiredAt now c k = true ↔ ∃ e, alookup c.ttl_dict k = some e ∧ e < now := by
  cases h : alookup c.ttl_dict k <;> simp [expiredAt, h]

theorem purge_max (now : Time) (c : UsageCache) :
    (purgeExpired now c).max_size_in_memory = c.max_size_in_memory := rfl

theorem purge_heap (now : Time) (c : UsageCache) :
    (purgeExpired now c).expiration_heap = c.expiration_heap := rfl

theorem alookup_purge_cache (now : Time) (c : UsageCache) (k : Key)
    (hnd : (c.cache_dict.map Prod.fst).Nodup) :
    alookup (purgeExpired now c).cache_dict k =
      if expiredAt now c k then none else alookup c.cache_dict k := by
  have h := alookup_filter c.cache_dict (fun p => ! expiredAt now c p.1) k hnd
  rw [purgeExpired]
  rw [h]
  cases hca : alookup c.cache_dict k with
  | none => cases hexp : expiredAt now c k <;> simp
  | some v => cases hexp : expiredAt now c k <;> simp [hexp]

theorem alookup_purge_ttl (now : Time) (c : UsageCache) (k : Key)
    (hnd : (c.ttl_dict.map Prod.fst).Nodup) :
    alookup (purgeExpired now c).ttl_dict k =
      (alookup c.ttl_dict k).bind (fun e => if e < now then none else some e) := by
  have h := alookup_filter c.ttl_dict (fun p => ! decide (p.2 < now)) k hnd
  rw [purgeExpired]
  rw [h]
  cases hca : alookup c.ttl_dict k with
  | none => simp
  | some e => by_cases he : e < now <;> simp [he]

theorem purgeExpired_WF {now : Time} {c : UsageCache} (hwf : WFAt now c) :
    WFAt now (purgeExpired now c) := by
  have hcnd : ((purgeExpired now c).cache_dict.map Prod.fst).Nodup :=
    ((List.filter_sublist c.cache_dict).map Prod.fst).nodup hwf.cacheNodup
  have htnd : ((purgeExpired now c).ttl_dict.map Prod.fst).Nodup :=
    ((List.filter_sublist c.ttl_dict).map Prod.fst).nodup hwf.ttlNodup
  refine ⟨hcnd, htnd, ?_, ?_, ?_⟩
  · intro k
    rw [alookup_purge_cache now c k hwf.cacheNodup,
        alookup_purge_ttl now c k hwf.ttlNodup]
    cases hca : alookup c.ttl_dict k with
    | none =>
        have hcc : alookup c.cache_dict k = none := by
          have h2 := hwf.sameKeys k
          rw [hca] at h2
          cases hc2 : alookup c.cache_dict k with
          | none => rfl
          | some v => rw [hc2] at h2; simp at h2
        have hexp : expiredAt now c k = false := by
          simp [expiredAt, hca]
        simp [hexp, hcc]
    | some e =>
        by_cases he : e < now
        · have hexp : expiredAt now c k = true := by
            simp [expiredAt, hca, he]
          simp [hexp, he]
        · have hexp : expiredAt now c k = false := by
            simp [expiredAt, hca, he]
          have := hwf.sameKeys k
          rw [hca] at this
          simp [hexp, he, this]
  · intro k e hk
    rw [alookup_purge_ttl now c k hwf.ttlNodup] at hk
    cases hca : alookup c.ttl_dict k with
    | none => rw [hca] at hk; cases hk
    | some e0 =>
        rw [hca] at hk
        by_cases he : e0 < now
        · simp [he] at hk
        · simp [he] at hk
          subst hk
          exact hwf.authCount k e0 hca
  · intro k e' hmem hne
    rw [purge_heap] at hmem
    rw [alookup_purge_ttl now c k hwf.ttlNodup] at hne
    cases hca : alookup c.ttl_dict k with
    | none =>
        exact hwf.stalePast k e' hmem (by rw [hca]; intro h; cases h)
    | some e0 =>
        rw [hca] at hne
        by_cases he : e0 < now
        · by_cases hee : e' = e0
          · exact hee ▸ he
          · exact hwf.stalePast k e' hmem (by rw [hca]; intro h; cases h; exact hee rfl)
        · simp [he] at hne
          exact hwf.stalePast k e' hmem (by rw [hca]; intro h; cases h; exact hne rfl)

/-! ### Eviction-loop lemmas -/

theorem evictLoop_zero (now : Time) (c : UsageCache) : evictLoop now 0 c = c := rfl

theorem evictLoop_succ (now : Time) (fuel : Nat) (c : UsageCache) :
    evictLoop now (fuel + 1) c =
      if c.max_size_in_memory < c.cache_dict.length then
        match heapPop c.expiration_heap with
        | none => c
        | some ((e, k), h) =>
            if alookup c.ttl_dict k = some e then
              evictLoop now fuel (evictKey c k h)
            else
              evictLoop now fuel (dropHeap c h)
      else c := rfl

theorem evictLoop_succ_not_over {now : Time} {fuel : Nat} {c : UsageCache}
    (hover : ¬ c.max_size_in_memory < c.cache_dict.length) :
    evictLoop now (fuel + 1) c = c := by
  rw [evictLoop_succ, if_neg hover]

theorem evictLoop_succ_none {now : Time} {fuel : Nat} {c : UsageCache}
    (hpop : heapPop c.expiration_heap = none) :
    evictLoop now (fuel + 1) c = c := by
  rw [evictLoop_succ, hpop]
  split <;> rfl

theorem evictLoop_succ_pop {now : Time} {fuel : Nat} {c : UsageCache}
    {e : Time} {k : Key} {h : List (Time × Key)}
    (hover : c.max_size_in_memory < c.cache_dict.length)
    (hpop : heapPop c.expiration_heap = some ((e, k), h)) :
    evictLoop now (fuel + 1) c =
      if alookup c.ttl_dict k = some e then
        evictLoop now fuel (evictKey c k h)
      else
        evictLoop now fuel (dropHeap c h) := by
  rw [evictLoop_succ, if_pos hover, hpop]

theorem evictLoop_max (now : Time) (fuel : Nat) (c : UsageCache) :
    (evictLoop now fuel c).max_size_in_memory = c.max_size_in_memory := by
  induction fuel generalizing c with
  | zero => rfl
  | succ fuel ih =>
      by_cases hover : c.max_size_in_memory < c.cache_dict.length
      · cases hpop : heapPop c.expiration_heap with
        | none => rw [evictLoop_succ_none hpop]
        | some r =>
            obtain ⟨⟨e, k⟩, h⟩ := r
            rw [evictLoop_succ_pop hover hpop]
            by_cases hauth : alookup c.ttl_dict k = some e
            · rw [if_pos hauth, ih]; rfl
            · rw [if_neg hauth, ih]; rfl
      · rw [evictLoop_succ_not_over hover]

theorem evictLoop_cache_none {now : Time} (fuel : Nat) {c : UsageCache} {k0 : Key}
    (h0 : alookup c.cache_dict k0 = none) :
    alookup (evictLoop now fuel c).cache_dict k0 = none := by
  induction fuel generalizing c with
  | zero => exact h0
  | succ fuel ih =>
      by_cases hover : c.max_size_in_memory < c.cache_dict.length
      · cases hpop : heapPop c.expiration_heap with
        | none => rw [evictLoop_succ_none hpop]; exact h0
        | some r =>
            obtain ⟨⟨e, k⟩, h⟩ := r
            rw [evictLoop_succ_pop hover hpop]
            by_cases hauth : alookup c.ttl_dict k = some e
            · rw [if_pos hauth]
              refine ih ?_
              show alookup (aerase c.cache_dict k) k0 = none
              by_cases hk : k0 = k
              · exact hk ▸ alookup_aerase_self _ _
              · rw [alookup_aerase_ne _ _ _ hk]; exact h0
            · rw [if_neg hauth]
              exact ih h0
      · rw [evictLoop_succ_not_over hover]; exact h0

theorem WF_evictKey {now : Time} {c : UsageCache} {e : Time} {k : Key}
    {h : List (Time × Key)} (hwf : WFAt now c)
    (hpop : heapPop c.expiration_heap = some ((e, k), h))
    (hauth : alookup c.ttl_dict k = some e) : WFAt now (evictKey c k h) := by
  refine ⟨aerase_keys_nodup _ _ hwf.cacheNodup, aerase_keys_nodup _ _ hwf.ttlNodup,
    ?_, ?_, ?_⟩
  · intro k'
    by_cases hk : k' = k
    · subst hk
      show (alookup (aerase c.cache_dict k') k').isSome
        = (alookup (aerase c.ttl_dict k') k').isSome
      rw [alookup_aerase_self, alookup_aerase_self]
      rfl
    · show (alookup (aerase c.cache_dict k) k').isSome
        = (alookup (aerase c.ttl_dict k) k').isSome
      rw [alookup_aerase_ne _ _ _ hk, alookup_aerase_ne _ _ _ hk]
      exact hwf.sameKeys k'
  · intro k' e' hk'
    have hkk : k' ≠ k := by
      intro hEq
      rw [hEq] at hk'
      rw [show alookup (evictKey c k h).ttl_dict k = alookup (aerase c.ttl_dict k) k
            from rfl, alookup_aerase_self] at hk'
      cases hk'
    rw [show alookup (evictKey c k h).ttl_dict k' = alookup (aerase c.ttl_dict k) k'
          from rfl, alookup_aerase_ne _ _ _ hkk] at hk'
    have hcount := hwf.authCount k' e' hk'
    have hstep := heapPop_pcount hpop (e', k')
    have hne : ((e, k) : Time × Key) ≠ (e', k') := by
      intro hEq
      cases hEq
      exact hkk rfl
    rw [if_neg hne] at hstep
    show pcount (e', k') h = 1
    omega
  · intro k'' e'' hmem hne
    have hmem0 : (e'', k'') ∈ c.expiration_heap := heapPop_mem hpop hmem
    by_cases hk : k'' = k
    · subst hk
      by_cases he : e'' = e
      · subst he
        have hcount := hwf.authCount k'' e'' hauth
        have hstep := heapPop_pcount hpop (e'', k'')
        rw [if_pos rfl] at hstep
        have hzero : pcount (e'', k'') h = 0 := by omega
        exact absurd hmem ((pcount_eq_zero _ _).mp hzero)
      · refine hwf.stalePast k'' e'' hmem0 ?_
        rw [hauth]
        intro hEq
        cases hEq
        exact he rfl
    · refine hwf.stalePast k'' e'' hmem0 ?_
      rw [show alookup (evictKey c k h).ttl_dict k'' = alookup (aerase c.ttl_dict k) k''
            from rfl, alookup_aerase_ne _ _ _ hk] at hne
      exact hne

theorem WF_dropHeap {now : Time} {c : UsageCache} {e : Time} {k : Key}
    {h : List (Time × Key)} (hwf : WFAt now c)
    (hpop : heapPop c.expiration_heap = some ((e, k), h))
    (hstale : alookup c.ttl_dict k ≠ some e) : WFAt now (dropHeap c h) := by
  refine ⟨hwf.cacheNodup, hwf.ttlNodup, hwf.sameKeys, ?_, ?_⟩
  · intro k' e' hk'
    have hcount := hwf.authCount k' e' hk'
    have hstep := heapPop_pcount hpop (e', k')
    have hne : ((e, k) : Time × Key) ≠ (e', k') := by
      intro hEq
      cases hEq
      exact hstale hk'
    rw [if_neg hne] at hstep
    show pcount (e', k') h = 1
    omega
  · intro k'' e'' hmem hne
    exact hwf.stalePast k'' e'' (heapPop_mem hpop hmem) hne

theorem evictLoop_WF {now : Time} (fuel : Nat) {c : UsageCache}
    (hwf : WFAt now c) : WFAt now (evictLoop now fuel c) := by
  induction fuel generalizing c with
  | zero => exact hwf
  | succ fuel ih =>
      by_cases hover : c.max_size_in_memory < c.cache_dict.length
      · cases hpop : heapPop c.expiration_heap with
        | none => rw [evictLoop_succ_none hpop]; exact hwf
        | some r =>
            obtain ⟨⟨e, k⟩, h⟩ := r
            rw [evictLoop_succ_pop hover hpop]
            by_cases hauth : alookup c.ttl_dict k = some e
            · rw [if_pos hauth]
              exact ih (WF_evictKey hwf hpop hauth)
            · rw [if_neg hauth]
              exact ih (WF_dropHeap hwf hpop hauth)
      · rw [evictLoop_succ_not_over hover]; exact hwf

/-- Under well-formedness a nonempty value store forces a nonempty heap:
every live key owns an authoritative heap pair. -/
theorem cache_ne_heap_ne {now : Time} {c : UsageCache} (hwf : WFAt now c)
    (hne : c.cache_dict ≠ []) : c.expiration_heap ≠ [] := by
  obtain ⟨p, rest, hval⟩ := List.exists_cons_of_ne_nil hne
  obtain ⟨k0, v0⟩ := p
  have hmem : (k0, v0) ∈ c.cache_dict := by rw [hval]; exact List.mem_cons_self _ _
  have hlook : alookup c.cache_dict k0 = some v0 :=
    mem_alookup _ _ _ hwf.cacheNodup hmem
  have hsome := hwf.sameKeys k0
  rw [hlook] at hsome
  cases httl : alookup c.ttl_dict k0 with
  | none => rw [httl] at hsome; simp at hsome
  | some e0 =>
      have hcount := hwf.authCount k0 e0 httl
      have hmemh : (e0, k0) ∈ c.expiration_heap :=
        (pcount_pos _ _).mp (by omega)
      intro hnil
      rw [hnil] at hmemh
      simp at hmemh

theorem evictLoop_length {now : Time} (fuel : Nat) {c : UsageCache}
    (hwf : WFAt now c) (hfuel : c.expiration_heap.length ≤ fuel) :
    (evictLoop now fuel c).cache_dict.length ≤ c.max_size_in_memory := by
  induction fuel generalizing c with
  | zero =>
      rw [evictLoop_zero]
      have hheap : c.expiration_heap = [] := by
        cases hc : c.expiration_heap with
        | nil => rfl
        | cons p rest => rw [hc] at hfuel; simp at hfuel
      by_cases hcache : c.cache_dict = []
      · rw [hcache]; simp
      · exact absurd hheap (cache_ne_heap_ne hwf hcache)
  | succ fuel ih =>
      by_cases hover : c.max_size_in_memory < c.cache_dict.length
      · cases hpop : heapPop c.expiration_heap with
        | none =>
            have hheap : c.expiration_heap = [] := heapPop_eq_none hpop
            by_cases hcache : c.cache_dict = []
            · rw [evictLoop_succ_none hpop, hcache]; simp
            · exact absurd hheap (cache_ne_heap_ne hwf hcache)
        | some r =>
            obtain ⟨⟨e, k⟩, h⟩ := r
            have hlen : c.expiration_heap.length = h.length + 1 := heapPop_length hpop
            rw [evictLoop_succ_pop hover hpop]
            by_cases hauth : alookup c.ttl_dict k = some e
            · rw [if_pos hauth]
              have := ih (WF_evictKey hwf hpop hauth)
                (by show h.length ≤ fuel; omega)
              exact this
            · rw [if_neg hauth]
              have := ih (WF_dropHeap hwf hpop hauth)
                (by show h.length ≤ fuel; omega)
              exact this
      · rw [evictLoop_succ_not_over hover]
        omega

/-- Whenever the eviction loop has evicted the live key `k1` but kept the live
key `k2`, the evicted key's expiration was no later than the survivor's. -/
theorem evictLoop_min {now : Time} (fuel : Nat) {c : UsageCache}
    (hwf : WFAt now c) :
    ∀ k1 k2 e1 e2 v,
      alookup c.ttl_dict k1 = some e1 →
      alookup c.ttl_dict k2 = some e2 →
      alookup (evictLoop now fuel c).cache_dict k1 = none →
      alookup (evictLoop now fuel c).cache_dict k2 = some v →
      e1 ≤ e2 := by
  induction fuel generalizing c with
  | zero =>
      intro k1 k2 e1 e2 v ht1 ht2 hr1 hr2
      rw [evictLoop_zero] at hr1
      have hsk := hwf.sameKeys k1
      rw [ht1, hr1] at hsk
      simp at hsk
  | succ fuel ih =>
      intro k1 k2 e1 e2 v ht1 ht2 hr1 hr2
      by_cases hover : c.max_size_in_memory < c.cache_dict.length
      · cases hpop : heapPop c.expiration_heap with
        | none =>
            rw [evictLoop_succ_none hpop] at hr1
            have hsk := hwf.sameKeys k1
            rw [ht1, hr1] at hsk
            simp at hsk
        | some r =>
            obtain ⟨⟨e, k⟩, h⟩ := r
            rw [evictLoop_succ_pop hover hpop] at hr1 hr2
            by_cases hauth : alookup c.ttl_dict k = some e
            · rw [if_pos hauth] at hr1 hr2
              by_cases hk2 : k2 = k
              · subst hk2
                have herased : alookup (evictKey c k2 h).cache_dict k2 = none := by
                  show alookup (aerase c.cache_dict k2) k2 = none
                  exact alookup_aerase_self _ _
                rw [evictLoop_cache_none fuel herased] at hr2
                cases hr2
              · by_cases hk1 : k1 = k
                · subst hk1
                  have he1 : e1 = e := by
                    rw [ht1] at hauth
                    cases hauth
                    rfl
                  subst he1
                  have hcount := hwf.authCount k2 e2 ht2
                  have hmem2 : (e2, k2) ∈ c.expiration_heap :=
                    (pcount_pos _ _).mp (by omega)
                  have hmin := (heapPop_spec hpop).2 (e2, k2) hmem2
                  rcases hmin with hlt | ⟨hEq, _⟩
                  · exact le_of_lt hlt
                  · exact le_of_eq hEq
                · refine ih (WF_evictKey hwf hpop hauth) k1 k2 e1 e2 v ?_ ?_ hr1 hr2
                  · show alookup (aerase c.ttl_dict k) k1 = some e1
                    rw [alookup_aerase_ne _ _ _ hk1]
                    exact ht1
                  · show alookup (aerase c.ttl_dict k) k2 = some e2
                    rw [alookup_aerase_ne _ _ _ hk2]
                    exact ht2
            · rw [if_neg hauth] at hr1 hr2
              exact ih (WF_dropHeap hwf hpop hauth) k1 k2 e1 e2 v ht1 ht2 hr1 hr2
      · rw [evictLoop_succ_not_over hover] at hr1
        have hsk := hwf.sameKeys k1
        rw [ht1, hr1] at hsk
        simp at hsk

/-! ### evictCache lemmas -/

theorem evictCache_WF {now : Time} {c : UsageCache} (hwf : WFAt now c) :
    WFAt now (evictCache now c) :=
  evictLoop_WF _ (purgeExpired_WF hwf)

theorem evictCache_max (now : Time) (c : UsageCache) :
    (evictCache now c).max_size_in_memory = c.max_size_in_memory := by
  rw [evictCache]
  rw [evictLoop_max]
  rfl

theorem evictCache_length {now : Time} {c : UsageCache} (hwf : WFAt now c) :
    (evictCache now c).cache_dict.length ≤ c.max_size_in_memory := by
  rw [evictCache]
  exact evictLoop_length _ (purgeExpired_WF hwf) (le_refl _)

/-- evictCache removes every entry that is already expired. -/
theorem evictCache_removes_expired {now : Time} {c : UsageCache}
    (hwf : WFAt now c) (k : Key) (hexp : expiredAt now c k = true) :
    alookup (evictCache now c).cache_dict k = none := by
  rw [evictCache]
  refine evictLoop_cache_none _ ?_
  rw [alookup_purge_cache now c k hwf.cacheNodup, if_pos hexp]

/-- Among entries that are live (unexpired) when eviction runs, an evicted
key's expiration never exceeds a surviving key's expiration. -/
theorem evictCache_earliest_first {now : Time} {c : UsageCache}
    (hwf : WFAt now c) (k1 k2 : Key) (e1 e2 : Time) (v : Val)
    (ht1 : alookup c.ttl_dict k1 = some e1) (hl1 : ¬ e1 < now)
    (ht2 : alookup c.ttl_dict k2 = some e2) (hl2 : ¬ e2 < now)
    (hr1 : alookup (evictCache now c).cache_dict k1 = none)
    (hr2 : alookup (evictCache now c).cache_dict k2 = some v) :
    e1 ≤ e2 := by
  rw [evictCache] at hr1 hr2
  refine evictLoop_min _ (purgeExpired_WF hwf) k1 k2 e1 e2 v ?_ ?_ hr1 hr2
  · rw [alookup_purge_ttl now c k1 hwf.ttlNodup, ht1]
    simp [hl1]
  · rw [alookup_purge_ttl now c k2 hwf.ttlNodup, ht2]
    simp [hl2]

/-! ### setCache lemmas -/

theorem pcount_nil (a : Time × Key) : pcount a [] = 0 := rfl

theorem aupdate_length_new {α : Type} (l : List (Key × α)) (k : Key) (v : α)
    (h : alookup l k = none) : (aupdate l k v).length = l.length + 1 := by
  induction l with
  | nil => simp [aupdate]
  | cons p rest ih =>
      obtain ⟨k0, v0⟩ := p
      by_cases hk : k0 = k
      · rw [alookup_cons, if_pos hk] at h
        cases h
      · rw [alookup_cons, if_neg hk] at h
        rw [aupdate_cons, if_neg hk]
        simp [ih h]

theorem setValue_ttl (key : Key) (v : Val) (c : UsageCache) :
    (setValue key v c).ttl_dict = c.ttl_dict := rfl

theorem setValue_heap (key : Key) (v : Val) (c : UsageCache) :
    (setValue key v c).expiration_heap = c.expiration_heap := rfl

theorem setValue_max (key : Key) (v : Val) (c : UsageCache) :
    (setValue key v c).max_size_in_memory = c.max_size_in_memory := rfl

theorem setValue_cache (key : Key) (v : Val) (c : UsageCache) :
    (setValue key v c).cache_dict = aupdate c.cache_dict key v := rfl

theorem pushTtl_cache (now : Time) (key : Key) (ttl : Time) (c : UsageCache) :
    (pushTtl now key ttl c).cache_dict = c.cache_dict := rfl

theorem pushTtl_ttl (now : Time) (key : Key) (ttl : Time) (c : UsageCache) :
    (pushTtl now key ttl c).ttl_dict = aupdate c.ttl_dict key (now + ttl) := rfl

theorem pushTtl_heap (now : Time) (key : Key) (ttl : Time) (c : UsageCache) :
    (pushTtl now key ttl c).expiration_heap
      = c.expiration_heap ++ [(now + ttl, key)] := rfl

theorem pushTtl_max (now : Time) (key : Key) (ttl : Time) (c : UsageCache) :
    (pushTtl now key ttl c).max_size_in_memory = c.max_size_in_memory := rfl

theorem shouldReschedule_none {now : Time} {c : UsageCache} {key : Key}
    (h : alookup c.ttl_dict key = none) : shouldReschedule now key c = true := by
  simp [shouldReschedule, h]

theorem shouldReschedule_expired {now : Time} {c : UsageCache} {key : Key}
    {e : Time} (h : alookup c.ttl_dict key = some e) (he : e < now) :
    shouldReschedule now key c = true := by
  simp [shouldReschedule, h, he]

theorem shouldReschedule_live {now : Time} {c : UsageCache} {key : Key}
    {e : Time} (h : alookup c.ttl_dict key = some e) (he : ¬ e < now) :
    shouldReschedule now key c = false := by
  simp [shouldReschedule, h, he]

theorem scheduleTtl_push {now : Time} {key : Key} {c : UsageCache} (ttl : Time)
    (h : shouldReschedule now key c = true) :
    scheduleTtl now key ttl c = pushTtl now key ttl c := by
  rw [scheduleTtl, if_pos h]

theorem scheduleTtl_keep {now : Time} {key : Key} {c : UsageCache} (ttl : Time)
    (h : shouldReschedule now key c = false) :
    scheduleTtl now key ttl c = c := by
  rw [scheduleTtl, h]
  simp

/-- Setting a value and pushing a fresh expiration preserves well-formedness,
provided every heap pair for the key is already in the past. -/
theorem WF_pushTtl_setValue {now : Time} {c : UsageCache} {key : Key} {v : Val}
    {ttl : Time} (hwf : WFAt now c)
    (hpast : ∀ e'', (e'', key) ∈ c.expiration_heap → e'' < now) :
    WFAt now (pushTtl now key ttl (setValue key v c)) := by
  refine ⟨?_, ?_, ?_, ?_, ?_⟩
  · rw [pushTtl_cache, setValue_cache]
    exact aupdate_keys_nodup _ _ _ hwf.cacheNodup
  · rw [pushTtl_ttl, setValue_ttl]
    exact aupdate_keys_nodup _ _ _ hwf.ttlNodup
  · intro k'
    rw [pushTtl_cache, setValue_cache, pushTtl_ttl, setValue_ttl]
    by_cases hk : k' = key
    · subst hk
      rw [alookup_aupdate_self, alookup_aupdate_self]
      rfl
    · rw [alookup_aupdate_ne _ _ _ _ hk, alookup_aupdate_ne _ _ _ _ hk]
      exact hwf.sameKeys k'
  · intro k' e' hk'
    rw [pushTtl_ttl, setValue_ttl] at hk'
    rw [pushTtl_heap, setValue_heap]
    by_cases hk : k' = key
    · subst hk
      rw [alookup_aupdate_self] at hk'
      cases hk'
      rw [pcount_append, pcount_cons, pcount_nil]
      have hzero : pcount (now + ttl, k') c.expiration_heap = 0 := by
        rw [pcount_eq_zero]
        intro hmem
        exact absurd (hpast _ hmem) (Nat.not_lt.mpr (Nat.le_add_right now ttl))
      simp [hzero]
    · rw [alookup_aupdate_ne _ _ _ _ hk] at hk'
      rw [pcount_append, pcount_cons, pcount_nil]
      have hne : ((now + ttl, key) : Time × Key) ≠ (e', k') := by
        intro hEq
        cases hEq
        exact hk rfl
      rw [if_neg hne]
      simpa using hwf.authCount k' e' hk'
  · intro k'' e'' hmem hne
    rw [pushTtl_heap, setValue_heap] at hmem
    rw [pushTtl_ttl, setValue_ttl] at hne
    rcases List.mem_append.mp hmem with hmem1 | hmem1
    · by_cases hk : k'' = key
      · subst hk
        exact hpast _ hmem1
      · refine hwf.stalePast k'' e'' hmem1 ?_
        rw [alookup_aupdate_ne _ _ _ _ hk] at hne
        exact hne
    · have hEq := List.mem_singleton.mp hmem1
      cases hEq
      rw [alookup_aupdate_self] at hne
      exact absurd rfl hne

/-- Overwriting the value of a key that still has a scheduled expiration
preserves well-formedness. -/
theorem WF_setValue_keep {now : Time} {c : UsageCache} {key : Key} {v : Val}
    {e : Time} (hwf : WFAt now c) (httl : alookup c.ttl_dict key = some e) :
    WFAt now (setValue key v c) := by
  refine ⟨?_, hwf.ttlNodup, ?_, hwf.authCount, hwf.stalePast⟩
  · rw [setValue_cache]
    exact aupdate_keys_nodup _ _ _ hwf.cacheNodup
  · intro k'
    rw [setValue_cache, setValue_ttl]
    by_cases hk : k' = key
    · subst hk
      rw [alookup_aupdate_self, httl]
      rfl
    · rw [alookup_aupdate_ne _ _ _ _ hk]
      exact hwf.sameKeys k'

theorem WF_scheduleTtl_setValue {now : Time} {c : UsageCache} (key : Key)
    (v : Val) (ttl : Time) (hwf : WFAt now c) :
    WFAt now (scheduleTtl now key ttl (setValue key v c)) := by
  cases httl : alookup c.ttl_dict key with
  | none =>
      rw [scheduleTtl_push ttl (shouldReschedule_none (setValue_ttl key v c ▸ httl))]
      refine WF_pushTtl_setValue hwf ?_
      intro e'' hmem
      refine hwf.stalePast key e'' hmem ?_
      rw [httl]
      intro hEq
      cases hEq
  | some e =>
      by_cases he : e < now
      · rw [scheduleTtl_push ttl
          (shouldReschedule_expired (setValue_ttl key v c ▸ httl) he)]
        refine WF_pushTtl_setValue hwf ?_
        intro e'' hmem
        by_cases hee : e'' = e
        · exact hee ▸ he
        · refine hwf.stalePast key e'' hmem ?_
          rw [httl]
          intro hEq
          cases hEq
          exact hee rfl
      · rw [scheduleTtl_keep ttl
          (shouldReschedule_live (setValue_ttl key v c ▸ httl) he)]
        exact WF_setValue_keep hwf httl

theorem maybeEvict_WF {now : Time} {c : UsageCache} (hwf : WFAt now c) :
    WFAt now (maybeEvict now c) := by
  rw [maybeEvict]
  by_cases hover : c.max_size_in_memory < c.cache_dict.length
  · rw [if_pos hover]
    exact evictCache_WF hwf
  · rw [if_neg hover]
    exact hwf

theorem setCache_WF {now : Time} {c : UsageCache} (key : Key) (v : Val)
    (ttl : Time) (hwf : WFAt now c) : WFAt now (setCache now key v ttl c) :=
  maybeEvict_WF (WF_scheduleTtl_setValue key v ttl hwf)

theorem scheduleTtl_max (now : Time) (key : Key) (ttl : Time) (c : UsageCache) :
    (scheduleTtl now key ttl c).max_size_in_memory = c.max_size_in_memory := by
  rw [scheduleTtl]
  by_cases h : shouldReschedule now key c <;> simp [h, pushTtl]

/-- After any `set`, the cache never holds more entries than its bound. -/
theorem setCache_length {now : Time} {c : UsageCache} (key : Key) (v : Val)
    (ttl : Time) (hwf : WFAt now c) :
    (setCache now key v ttl c).cache_dict.length ≤ c.max_size_in_memory := by
  rw [setCache, maybeEvict]
  have hwf2 := WF_scheduleTtl_setValue key v ttl hwf
  have hmax : (scheduleTtl now key ttl (setValue key v c)).max_size_in_memory
      = c.max_size_in_memory := by
    rw [scheduleTtl_max, setValue_max]
  by_cases hover : (scheduleTtl now key ttl (setValue key v c)).max_size_in_memory
      < (scheduleTtl now key ttl (setValue key v c)).cache_dict.length
  · rw [if_pos hover]
    have h1 := evictCache_length hwf2
    omega
  · rw [if_neg hover]
    omega

/-! ### getCache and incrementCache lemmas -/

theorem getCache_not_expired {now : Time} {c : UsageCache} {key : Key}
    (h : expiredAt now c key = false) :
    getCache now key c = (alookup c.cache_dict key, c) := by
  rw [getCache, h]
  simp

theorem getCache_expired {now : Time} {c : UsageCache} {key : Key}
    (h : expiredAt now c key = true) :
    getCache now key c = (none, purgeKey c key) := by
  rw [getCache, if_pos h]

theorem WF_purgeKey {now : Time} {c : UsageCache} {key : Key} {e : Time}
    (hwf : WFAt now c) (httl : alookup c.ttl_dict key = some e) (he : e < now) :
    WFAt now (purgeKey c key) := by
  refine ⟨aerase_keys_nodup _ _ hwf.cacheNodup, aerase_keys_nodup _ _ hwf.ttlNodup,
    ?_, ?_, ?_⟩
  · intro k'
    show (alookup (aerase c.cache_dict key) k').isSome
      = (alookup (aerase c.ttl_dict key) k').isSome
    by_cases hk : k' = key
    · subst hk
      rw [alookup_aerase_self, alookup_aerase_self]
      rfl
    · rw [alookup_aerase_ne _ _ _ hk, alookup_aerase_ne _ _ _ hk]
      exact hwf.sameKeys k'
  · intro k' e' hk'
    show pcount (e', k') c.expiration_heap = 1
    by_cases hk : k' = key
    · subst hk
      rw [show alookup (purgeKey c k').ttl_dict k' = alookup (aerase c.ttl_dict k') k'
            from rfl, alookup_aerase_self] at hk'
      cases hk'
    · rw [show alookup (purgeKey c key).ttl_dict k' = alookup (aerase c.ttl_dict key) k'
            from rfl, alookup_aerase_ne _ _ _ hk] at hk'
      exact hwf.authCount k' e' hk'
  · intro k'' e'' hmem hne
    by_cases hk : k'' = key
    · subst hk
      by_cases hee : e'' = e
      · exact hee ▸ he
      · refine hwf.stalePast k'' e'' hmem ?_
        rw [httl]
        intro hEq
        cases hEq
        exact hee rfl
    · refine hwf.stalePast k'' e'' hmem ?_
      rw [show alookup (purgeKey c key).ttl_dict k'' = alookup (aerase c.ttl_dict key) k''
            from rfl, alookup_aerase_ne _ _ _ hk] at hne
      exact hne

theorem getCache_WF {now : Time} {c : UsageCache} (key : Key) (hwf : WFAt now c) :
    WFAt now (getCache now key c).2 := by
  cases hexp : expiredAt now c key with
  | false => rw [getCache_not_expired hexp]; exact hwf
  | true =>
      rw [getCache_expired hexp]
      obtain ⟨e, httl, he⟩ := (expiredAt_iff now c key).mp hexp
      exact WF_purgeKey hwf httl he

theorem incrementCache_eq (now : Time) (key : Key) (delta : Val) (ttl : Time)
    (c : UsageCache) :
    incrementCache now key delta ttl c =
      ((getCache now key c).1.getD 0 + delta,
       setCache now key ((getCache now key c).1.getD 0 + delta) ttl
         (getCache now key c).2) := rfl

theorem incrementCache_WF {now : Time} {c : UsageCache} (key : Key)
    (delta : Val) (ttl : Time) (hwf : WFAt now c) :
    WFAt now (incrementCache now key delta ttl c).2 := by
  rw [incrementCache_eq]
  exact setCache_WF _ _ _ (getCache_WF key hwf)

/-- A `set` on a live (unexpired, present) key in a within-bound cache only
overwrites the value: expiration map, heap and size bound are untouched. -/
theorem setCache_live_eq {now : Time} {c : UsageCache} {key : Key} {e : Time}
    (v : Val) (ttl : Time)
    (hc : (alookup c.cache_dict key).isSome = true)
    (ht : alookup c.ttl_dict key = some e) (he : ¬ e < now)
    (hlen : c.cache_dict.length ≤ c.max_size_in_memory) :
    setCache now key v ttl c = setValue key v c := by
  rw [setCache, scheduleTtl_keep ttl
    (shouldReschedule_live (setValue_ttl key v c ▸ ht) he), maybeEvict]
  have hlen2 : (setValue key v c).cache_dict.length = c.cache_dict.length := by
    rw [setValue_cache]
    exact aupdate_length_of_mem _ _ _ hc
  rw [if_neg]
  rw [setValue_max, hlen2]
  omega

/-- One atomic increment on a live key adds exactly `delta` and leaves all
bookkeeping (expiration, heap, size) unchanged. -/
theorem incrementCache_live {now : Time} {c : UsageCache} {key : Key} {e : Time}
    {v0 : Val} (delta : Val) (ttl : Time)
    (hc : alookup c.cache_dict key = some v0)
    (ht : alookup c.ttl_dict key = some e) (he : ¬ e < now)
    (hlen : c.cache_dict.length ≤ c.max_size_in_memory) :
    incrementCache now key delta ttl c = (v0 + delta, setValue key (v0 + delta) c) := by
  have hexp : expiredAt now c key = false := by
    simp [expiredAt, ht, he]
  rw [incrementCache_eq, getCache_not_expired hexp]
  rw [hc]
  have hsome : (alookup c.cache_dict key).isSome = true := by rw [hc]; rfl
  rw [setCache_live_eq _ _ hsome ht he hlen]
  rfl

theorem runIncrements_cons (now : Time) (key : Key) (delta : Val) (ttl : Time)
    (b : Bool) (rest : List Bool) (c : UsageCache) :
    runIncrements now key delta ttl (b :: rest) c
      = runIncrements now key delta ttl rest (incrementCache now key delta ttl c).2 := rfl

theorem runIncrements_nil (now : Time) (key : Key) (delta : Val) (ttl : Time)
    (c : UsageCache) : runIncrements now key delta ttl [] c = c := rfl

/-- Exact accounting: any schedule of atomic increments on a live key ends
with the initial value plus `delta` times the number of callers; nothing is
lost and nothing is applied twice. -/
theorem runIncrements_value {now : Time} {key : Key} (delta : Val) (ttl : Time) :
    ∀ (callers : List Bool) (c : UsageCache) (v0 : Val) (e : Time),
      alookup c.cache_dict key = some v0 →
      alookup c.ttl_dict key = some e → ¬ e < now →
      c.cache_dict.length ≤ c.max_size_in_memory →
      alookup (runIncrements now key delta ttl callers c).cache_dict key
        = some (v0 + delta * (callers.length : Int)) := by
  intro callers
  induction callers with
  | nil =>
      intro c v0 e hc ht he hlen
      rw [runIncrements_nil, hc]
      simp
  | cons b rest ih =>
      intro c v0 e hc ht he hlen
      rw [runIncrements_cons, incrementCache_live delta ttl hc ht he hlen]
      have hc' : alookup (setValue key (v0 + delta) c).cache_dict key
          = some (v0 + delta) := by
        rw [setValue_cache]
        exact alookup_aupdate_self _ _ _
      have ht' : alookup (setValue key (v0 + delta) c).ttl_dict key = some e := ht
      have hsome : (alookup c.cache_dict key).isSome = true := by rw [hc]; rfl
      have hlen' : (setValue key (v0 + delta) c).cache_dict.length
          ≤ (setValue key (v0 + delta) c).max_size_in_memory := by
        rw [setValue_cache, setValue_max, aupdate_length_of_mem _ _ _ hsome]
        exact hlen
      have := ih (setValue key (v0 + delta) c) (v0 + delta) e hc' ht' he hlen'
      rw [this]
      congr 1
      have hcast : ((b :: rest).length : Int) = (rest.length : Int) + 1 := by
        push_cast [List.length_cons]
        ring
      rw [hcast]
      ring

/-! ### Heap logical size -/

theorem pcount_zero_of_lookup_none {l : List (Key × Time)} {k : Key} (e : Time)
    (h : alookup l k = none) : pcount (k, e) l = 0 := by
  rw [pcount_eq_zero]
  intro hmem
  rw [alookup_eq_none_iff] at h
  exact h (List.mem_map.mpr ⟨(k, e), hmem, rfl⟩)

/-- Counting authoritative heap pairs, one live key at a time. -/
theorem countP_auth (heap : List (Time × Key)) :
    ∀ ttl : List (Key × Time), (ttl.map Prod.fst).Nodup →
      (∀ k e, alookup ttl k = some e → pcount (e, k) heap = 1) →
      heap.countP (fun p => decide (alookup ttl p.2 = some p.1)) = ttl.length := by
  intro ttl
  induction ttl with
  | nil =>
      intro hnd hauth
      rw [List.countP_eq_zero.mpr]
      · rfl
      · intro p hp
        simp [alookup]
  | cons q rest ih =>
      intro hnd hauth
      obtain ⟨k0, e0⟩ := q
      simp only [List.map_cons, List.nodup_cons] at hnd
      have hrest_none : alookup rest k0 = none :=
        (alookup_eq_none_iff rest k0).mpr hnd.1
      have hauth0 : pcount (e0, k0) heap = 1 := by
        refine hauth k0 e0 ?_
        rw [alookup_cons, if_pos rfl]
      have hauthRest : ∀ k e, alookup rest k = some e → pcount (e, k) heap = 1 := by
        intro k e hk
        by_cases hkk : k0 = k
        · subst hkk
          rw [hrest_none] at hk
          cases hk
        · refine hauth k e ?_
          rw [alookup_cons, if_neg hkk]
          exact hk
      have hih := ih hnd.2 hauthRest
      have hsplit := List.countP_eq_countP_filter_add heap
        (fun p => decide (alookup ((k0, e0) :: rest) p.2 = some p.1))
        (fun p => decide (p.2 = k0))
      beta_reduce at hsplit
      have hA : (heap.filter (fun p => decide (p.2 = k0))).countP
          (fun p => decide (alookup ((k0, e0) :: rest) p.2 = some p.1))
          = 1 := by
        have hcongr : (heap.filter (fun p => decide (p.2 = k0))).countP
            (fun p => decide (alookup ((k0, e0) :: rest) p.2 = some p.1))
            = (heap.filter (fun p => decide (p.2 = k0))).countP
              (fun p => decide (p = (e0, k0))) := by
          refine List.countP_congr ?_
          intro x hx
          have hx2 : x.2 = k0 := by
            have := List.of_mem_filter hx
            simpa using this
          rw [hx2, alookup_cons, if_pos rfl]
          constructor
          · intro h
            simp only [decide_eq_true_eq] at h
            have hx1 : x.1 = e0 := by
              cases h
              rfl
            simp only [decide_eq_true_eq]
            calc x = (x.1, x.2) := rfl
              _ = (e0, k0) := by rw [hx1, hx2]
          · intro h
            simp only [decide_eq_true_eq] at h
            subst h
            simp
        rw [hcongr]
        have hsplit2 := List.countP_eq_countP_filter_add heap
          (fun p => decide (p = (e0, k0))) (fun p => decide (p.2 = k0))
        beta_reduce at hsplit2
        have hzero2 : (heap.filter (fun p => !decide (p.2 = k0))).countP
            (fun p => decide (p = (e0, k0))) = 0 := by
          rw [List.countP_eq_zero]
          intro x hx
          have hx2 := List.of_mem_filter hx
          simp only [Bool.not_eq_eq_eq_not, Bool.not_true, decide_eq_false_iff_not] at hx2
          simp only [decide_eq_true_eq]
          intro hEq
          subst hEq
          exact hx2 rfl
        have : pcount (e0, k0) heap
            = (heap.filter (fun p => decide (p.2 = k0))).countP
                (fun p => decide (p = (e0, k0))) := by
          rw [pcount] at hauth0 ⊢
          omega
        rw [← this]
        exact hauth0
      have hB : (heap.filter (fun p => !decide (p.2 = k0))).countP
          (fun p => decide (alookup ((k0, e0) :: rest) p.2 = some p.1))
          = rest.length := by
        have hcongr : (heap.filter (fun p => !decide (p.2 = k0))).countP
            (fun p => decide (alookup ((k0, e0) :: rest) p.2 = some p.1))
            = (heap.filter (fun p => !decide (p.2 = k0))).countP
              (fun p => decide (alookup rest p.2 = some p.1)) := by
          refine List.countP_congr ?_
          intro x hx
          have hx2 := List.of_mem_filter hx
          simp only [Bool.not_eq_eq_eq_not, Bool.not_true, decide_eq_false_iff_not] at hx2
          have hne : ¬ k0 = x.2 := fun h => hx2 h.symm
          rw [alookup_cons, if_neg hne]
        rw [hcongr]
        have hsplit3 := List.countP_eq_countP_filter_add heap
          (fun p => decide (alookup rest p.2 = some p.1)) (fun p => decide (p.2 = k0))
        beta_reduce at hsplit3
        have hzero3 : (heap.filter (fun p => decide (p.2 = k0))).countP
            (fun p => decide (alookup rest p.2 = some p.1)) = 0 := by
          rw [List.countP_eq_zero]
          intro x hx
          have hx2 : x.2 = k0 := by
            have := List.of_mem_filter hx
            simpa using this
          rw [hx2, hrest_none]
          simp
        omega
      rw [hsplit, hA, hB, List.length_cons]
      exact Nat.add_comm 1 rest.length

/-- The heap logical size — the number of heap pairs that the side
expiration map still vouches for — equals the number of live keys. -/
theorem heapLogicalSize_eq {now : Time} {c : UsageCache} (hwf : WFAt now c) :
    heapLogicalSize c = c.ttl_dict.length := by
  rw [heapLogicalSize, ← List.countP_eq_length_filter]
  exact countP_auth c.expiration_heap c.ttl_dict hwf.ttlNodup hwf.authCount

/-! ### Repeated sets and the empty cache -/

theorem WF_empty (now : Time) (maxSize : Nat) : WFAt now (emptyCache maxSize) := by
  refine ⟨?_, ?_, ?_, ?_, ?_⟩
  · simp [emptyCache]
  · simp [emptyCache]
  · intro k
    rfl
  · intro k e h
    cases h
  · intro k e' h
    cases h

theorem setCache_empty (now : Time) (k : Key) (v : Val) (ttl : Time)
    {maxSize : Nat} (hM : 1 ≤ maxSize) :
    setCache now k v ttl (emptyCache maxSize)
      = ⟨maxSize, [(k, v)], [(k, now + ttl)], [(now + ttl, k)]⟩ := by
  rw [setCache, scheduleTtl_push ttl (shouldReschedule_none
    (show alookup (setValue k v (emptyCache maxSize)).ttl_dict k = none from rfl)),
    maybeEvict, if_neg]
  · rfl
  · show ¬ maxSize < 1
    omega

/-- Repeated `set` on a live key never changes the expiration map or the heap. -/
theorem iterateSet_live {now : Time} {key : Key} (v : Val) (ttl : Time) :
    ∀ (n : Nat) (c : UsageCache) (v0 : Val) (e : Time),
      alookup c.cache_dict key = some v0 →
      alookup c.ttl_dict key = some e → ¬ e < now →
      c.cache_dict.length ≤ c.max_size_in_memory →
      (iterateSet now key v ttl n c).expiration_heap = c.expiration_heap
        ∧ (iterateSet now key v ttl n c).ttl_dict = c.ttl_dict := by
  intro n
  induction n with
  | zero =>
      intro c v0 e hc ht he hlen
      exact ⟨rfl, rfl⟩
  | succ n ih =>
      intro c v0 e hc ht he hlen
      have hsome : (alookup c.cache_dict key).isSome = true := by rw [hc]; rfl
      have hstep : iterateSet now key v ttl (n + 1) c
          = iterateSet now key v ttl n (setCache now key v ttl c) := rfl
      rw [hstep, setCache_live_eq v ttl hsome ht he hlen]
      have hc' : alookup (setValue key v c).cache_dict key = some v := by
        rw [setValue_cache]
        exact alookup_aupdate_self _ _ _
      have hlen' : (setValue key v c).cache_dict.length
          ≤ (setValue key v c).max_size_in_memory := by
        rw [setValue_cache, setValue_max, aupdate_length_of_mem _ _ _ hsome]
        exact hlen
      exact ih (setValue key v c) v e hc' ht he hlen'

/-- Repeated `set` calls on one key leave exactly one physical heap entry. -/
theorem iterateSet_heap_one {now : Time} {key : Key} (v : Val) (ttl : Time)
    {maxSize : Nat} (hM : 1 ≤ maxSize) (n : Nat) (hn : 1 ≤ n) :
    (iterateSet now key v ttl n (emptyCache maxSize)).expiration_heap
      = [(now + ttl, key)] := by
  obtain ⟨m, rfl⟩ : ∃ m, n = m + 1 := ⟨n - 1, by omega⟩
  have hstep : iterateSet now key v ttl (m + 1) (emptyCache maxSize)
      = iterateSet now key v ttl m (setCache now key v ttl (emptyCache maxSize)) := rfl
  rw [hstep, setCache_empty now key v ttl hM]
  have hc : alookup ([(key, v)] : List (Key × Val)) key = some v := by
    rw [alookup_cons, if_pos rfl]
  have ht : alookup ([(key, now + ttl)] : List (Key × Time)) key = some (now + ttl) := by
    rw [alookup_cons, if_pos rfl]
  have he : ¬ now + ttl < now := Nat.not_lt.mpr (Nat.le_add_right now ttl)
  have hlen : ([(key, v)] : List (Key × Val)).length ≤ maxSize := by
    simpa using hM
  have := iterateSet_live v ttl m
    ⟨maxSize, [(key, v)], [(key, now + ttl)], [(now + ttl, key)]⟩ v (now + ttl)
    hc ht he hlen
  exact this.1

/-! ## RetryCoordinator

Modelled from the spec: `Router.log_retry` is not shipped in `src/` (only its
tests are), so the per-request retry bookkeeping is reconstructed from spec
§4.3 ("RetryCoordinator") and §3 ("RetryRecord"): `logRetry` appends one
RetryRecord to the history scoped to the calling context (keyed by request
id), trims the history to the 3 most recent entries, and never touches any
other context's history.  The coordinator state maps each context id to its
attempt counter and capped history. -/

structure RetryRecord where
  ctxId : Nat
  attempt : Nat
  exc : Nat
deriving DecidableEq

structure CtxHistory where
  attempts : Nat
  history : List RetryRecord
deriving DecidableEq

/-- Keep only the 3 most recent entries (oldest dropped on overflow). -/
def lastThree (l : List RetryRecord) : List RetryRecord :=
  l.drop (l.length - 3)

/-- The update `logRetry` performs on one context's slot. -/
def logStep (ctx : Nat) (exc : Nat) (o : Option CtxHistory) : CtxHistory :=
  let h := o.getD ⟨0, []⟩
  ⟨h.attempts + 1, lastThree (h.history ++ [⟨ctx, h.attempts + 1, exc⟩])⟩

/-- Modelled from the spec (§4.3 `logRetry`): append a RetryRecord for this
context's next attempt to the history scoped to this specific call context,
then trim to the 3 most recent entries — one atomic unit. -/
def logRetry (st : List (Nat × CtxHistory)) (ctx : Nat) (exc : Nat) :
    List (Nat × CtxHistory) :=
  aupdate st ctx (logStep ctx exc (alookup st ctx))

/-- Run an interleaved sequence of `logRetry` calls, one `(ctx, exc)` pair per
call, in schedule order. -/
def applyCalls (calls : List (Nat × Nat)) (st : List (Nat × CtxHistory)) :
    List (Nat × CtxHistory) :=
  calls.foldl (fun s c => logRetry s c.1 c.2) st

/-- The retry history the coordinator holds for a context. -/
def histOf (st : List (Nat × CtxHistory)) (ctx : Nat) : List RetryRecord :=
  ((alookup st ctx).getD ⟨0, []⟩).history

/-- The full (uncapped) record list context `ctx` would produce for the
exception sequence `es`, attempt numbers starting at 1. -/
def attemptRecords (ctx : Nat) (es : List Nat) : List RetryRecord :=
  ((List.range es.length).zip es).map (fun p => ⟨ctx, p.1 + 1, p.2⟩)

theorem logRetry_lookup_self (st : List (Nat × CtxHistory)) (ctx : Nat)
    (exc : Nat) :
    alookup (logRetry st ctx exc) ctx = some (logStep ctx exc (alookup st ctx)) :=
  alookup_aupdate_self _ _ _

theorem logRetry_frame (st : List (Nat × CtxHistory)) (ctx ctx' : Nat)
    (exc : Nat) (h : ctx' ≠ ctx) :
    alookup (logRetry st ctx exc) ctx' = alookup st ctx' :=
  alookup_aupdate_ne _ _ _ _ h

theorem applyCalls_cons (c : Nat × Nat) (calls : List (Nat × Nat))
    (st : List (Nat × CtxHistory)) :
    applyCalls (c :: calls) st = applyCalls calls (logRetry st c.1 c.2) := rfl

theorem applyCalls_append (l1 l2 : List (Nat × Nat))
    (st : List (Nat × CtxHistory)) :
    applyCalls (l1 ++ l2) st = applyCalls l2 (applyCalls l1 st) :=
  List.foldl_append ..

/-- What a context's slot holds depends only on that context's own calls:
running the full interleaved schedule or just the context's own subsequence
gives the same slot. -/
theorem applyCalls_project (ctx : Nat) :
    ∀ (calls : List (Nat × Nat)) (st1 st2 : List (Nat × CtxHistory)),
      alookup st1 ctx = alookup st2 ctx →
      alookup (applyCalls calls st1) ctx
        = alookup (applyCalls (calls.filter (fun c => decide (c.1 = ctx))) st2) ctx := by
  intro calls
  induction calls with
  | nil => intro st1 st2 h; exact h
  | cons c rest ih =>
      intro st1 st2 h
      obtain ⟨c1, c2⟩ := c
      rw [applyCalls_cons]
      by_cases hc : c1 = ctx
      · subst hc
        have hfil : ((c1, c2) :: rest).filter (fun c => decide (c.1 = c1))
            = (c1, c2) :: rest.filter (fun c => decide (c.1 = c1)) := by
          rw [List.filter_cons]
          simp
        rw [hfil, applyCalls_cons]
        refine ih _ _ ?_
        rw [logRetry_lookup_self, logRetry_lookup_self, h]
      · have hfil : ((c1, c2) :: rest).filter (fun c => decide (c.1 = ctx))
            = rest.filter (fun c => decide (c.1 = ctx)) := by
          rw [List.filter_cons]
          simp [hc]
        rw [hfil]
        refine ih _ _ ?_
        rw [logRetry_frame _ _ _ _ (fun hEq => hc hEq.symm)]
        exact h

/-- Every record in a context's history carries that context's own id. -/
theorem applyCalls_own_records (ctx : Nat) :
    ∀ (calls : List (Nat × Nat)) (st : List (Nat × CtxHistory)),
      (∀ r ∈ histOf st ctx, r.ctxId = ctx) →
      ∀ r ∈ histOf (applyCalls calls st) ctx, r.ctxId = ctx := by
  intro calls
  induction calls with
  | nil => intro st h; exact h
  | cons c rest ih =>
      intro st h
      obtain ⟨c1, c2⟩ := c
      rw [applyCalls_cons]
      refine ih _ ?_
      intro r hr
      by_cases hc : c1 = ctx
      · subst hc
        rw [histOf, logRetry_lookup_self] at hr
        simp only [Option.getD_some] at hr
        rw [logStep] at hr
        have hr2 := List.drop_subset _ _ hr
        rcases List.mem_append.mp hr2 with hr3 | hr3
        · exact h r hr3
        · have := List.mem_singleton.mp hr3
          rw [this]
      · rw [histOf, logRetry_frame _ _ _ _ (fun hEq => hc hEq.symm)] at hr
        exact h r hr

theorem lastThree_snoc (l : List RetryRecord) (x : RetryRecord) :
    lastThree (lastThree l ++ [x]) = lastThree (l ++ [x]) := by
  by_cases hlen : l.length ≤ 2
  · have h0 : l.length - 3 = 0 := by omega
    rw [lastThree, lastThree, lastThree, h0, List.drop_zero]
  · have h3 : (l.drop (l.length - 3)).length = 3 := by
      rw [List.length_drop]
      omega
    rw [lastThree, lastThree, lastThree]
    rw [List.length_append, h3, List.length_append]
    have h1 : 3 + [x].length - 3 = 1 := by simp
    rw [h1]
    have h2 : l.length + [x].length - 3 = (l.length - 2) := by simp
    rw [h2]
    rw [List.drop_append_eq_append_drop, List.drop_append_eq_append_drop]
    rw [List.drop_drop]
    have h4 : l.length - 3 + 1 = l.length - 2 := by omega
    have h5 : 1 - (l.drop (l.length - 3)).length = 0 := by rw [h3]
    have h6 : l.length - 2 - l.length = 0 := by omega
    rw [h4, h5, h6, List.drop_zero]

theorem attemptRecords_snoc (ctx : Nat) (es : List Nat) (e : Nat) :
    attemptRecords ctx (es ++ [e])
      = attemptRecords ctx es ++ [⟨ctx, es.length + 1, e⟩] := by
  rw [attemptRecords, attemptRecords]
  rw [List.length_append]
  have h1 : List.range (es.length + [e].length) = List.range es.length ++ [es.length] := by
    simp [List.range_succ]
  rw [h1, List.zip_append (by simp)]
  rw [List.map_append]
  rfl

/-- After any number of `logRetry` calls for one context (starting from the
empty coordinator), the context's slot holds the attempt count and the capped
suffix of its own attempt records. -/
theorem applyCalls_single (ctx : Nat) (es : List Nat) :
    (alookup (applyCalls (es.map (fun e => (ctx, e))) []) ctx).getD ⟨0, []⟩
      = ⟨es.length, lastThree (attemptRecords ctx es)⟩ := by
  induction es using List.reverseRecOn with
  | nil => rfl
  | append_singleton es e ih =>
      rw [List.map_append, applyCalls_append]
      have hstep : applyCalls ([e].map (fun e => (ctx, e)))
          (applyCalls (es.map (fun e => (ctx, e))) [])
          = logRetry (applyCalls (es.map (fun e => (ctx, e))) []) ctx e := rfl
      rw [hstep, logRetry_lookup_self]
      simp only [Option.getD_some]
      rw [logStep]
      cases hprev : alookup (applyCalls (es.map (fun e => (ctx, e))) []) ctx with
      | none =>
          rw [hprev] at ih
          simp only [Option.getD_none] at ih
          have hatt : es.length = 0 := by
            have := congrArg CtxHistory.attempts ih
            simpa using this.symm
          have hhist : lastThree (attemptRecords ctx es) = [] := by
            have := congrArg CtxHistory.history ih
            simpa using this.symm
          have hes : es = [] := List.eq_nil_of_length_eq_zero hatt
          subst hes
          rfl
      | some prev =>
          rw [hprev] at ih
          simp only [Option.getD_some] at ih
          rw [ih]
          simp only [Option.getD_some]
          rw [lastThree_snoc, attemptRecords_snoc]
          have hlen : (es ++ [e]).length = es.length + 1 := by simp
          rw [hlen]

/-! ## DeploymentRegistry

Modelled from the spec: the router's deployment store (`Router.model_list`
plus `Router.model_id_to_deployment_index_map`) is not shipped in `src/`
(only its tests are), so it is reconstructed from spec §4.1
("DeploymentRegistry") and §3 ("Deployment"): an ordered deployment list plus
an id-to-position index, mutated together; `add` fails on a duplicate id,
`upsert` replaces in place preserving position, `delete` removes the entry
and repairs every index that pointed past it. -/

/-- Positional lookup, `nth l i = some (l[i])` when `i` is in bounds. -/
def nth {α : Type} : List α → Nat → Option α
  | [], _ => none
  | a :: _, 0 => some a
  | _ :: l, n + 1 => nth l n

theorem nth_lt {α : Type} : ∀ (l : List α) (n : Nat), n < l.length →
    ∃ a, nth l n = some a := by
  intro l
  induction l with
  | nil => intro n h; simp at h
  | cons a tl ih =>
      intro n h
      cases n with
      | zero => exact ⟨a, rfl⟩
      | succ m =>
          rw [List.length_cons] at h
          exact ih m (by omega)

theorem nth_some_lt {α : Type} : ∀ (l : List α) (n : Nat) (a : α),
    nth l n = some a → n < l.length := by
  intro l
  induction l with
  | nil => intro n a h; cases h
  | cons b tl ih =>
      intro n a h
      cases n with
      | zero => simp
      | succ m =>
          have := ih m a h
          rw [List.length_cons]
          omega

theorem nth_append_left {α : Type} : ∀ (l1 l2 : List α) (n : Nat),
    n < l1.length → nth (l1 ++ l2) n = nth l1 n := by
  intro l1
  induction l1 with
  | nil => intro l2 n h; simp at h
  | cons a tl ih =>
      intro l2 n h
      cases n with
      | zero => rfl
      | succ m =>
          rw [List.length_cons] at h
          exact ih l2 m (by omega)

theorem nth_concat_self {α : Type} : ∀ (l : List α) (a : α),
    nth (l ++ [a]) l.length = some a := by
  intro l
  induction l with
  | nil => intro a; rfl
  | cons b tl ih => intro a; exact ih a

theorem nth_set_self {α : Type} : ∀ (l : List α) (i : Nat) (a : α),
    i < l.length → nth (l.set i a) i = some a := by
  intro l
  induction l with
  | nil => intro i a h; simp at h
  | cons b tl ih =>
      intro i a h
      cases i with
      | zero => rfl
      | succ m =>
          rw [List.length_cons] at h
          exact ih m a (by omega)

theorem nth_set_ne {α : Type} : ∀ (l : List α) (i j : Nat) (a : α),
    j ≠ i → nth (l.set i a) j = nth l j := by
  intro l
  induction l with
  | nil => intro i j a h; simp
  | cons b tl ih =>
      intro i j a h
      cases i with
      | zero =>
          cases j with
          | zero => exact absurd rfl h
          | succ m => rfl
      | succ mi =>
          cases j with
          | zero => rfl
          | succ mj => exact ih mi mj a (by omega)

theorem nth_eraseIdx_lt {α : Type} : ∀ (l : List α) (i j : Nat),
    j < i → nth (l.eraseIdx i) j = nth l j := by
  intro l
  induction l with
  | nil => intro i j h; rfl
  | cons b tl ih =>
      intro i j h
      cases i with
      | zero => omega
      | succ mi =>
          cases j with
          | zero => rfl
          | succ mj =>
              show nth (tl.eraseIdx mi) mj = nth tl mj
              exact ih mi mj (by omega)

theorem nth_eraseIdx_ge {α : Type} : ∀ (l : List α) (i j : Nat),
    i ≤ j → nth (l.eraseIdx i) j = nth l (j + 1) := by
  intro l
  induction l with
  | nil => intro i j h; rfl
  | cons b tl ih =>
      intro i j h
      cases i with
      | zero =>
          show nth tl j = nth tl j
          rfl
      | succ mi =>
          cases j with
          | zero => omega
          | succ mj =>
              show nth (tl.eraseIdx mi) mj = nth tl (mj + 1)
              exact ih mi mj (by omega)

structure Deployment where
  id : Nat
  group : Nat
  tpm : Nat
  rpm : Nat
deriving DecidableEq

structure Registry where
  deployment_list : List Deployment
  index_map : List (Nat × Nat)
deriving DecidableEq

def emptyRegistry : Registry := ⟨[], []⟩

/-- Modelled from the spec (§4.1 `add`): fails with DuplicateError (`none`)
when the id exists; otherwise appends and indexes in one critical section. -/
def addDeployment (r : Registry) (d : Deployment) : Option Registry :=
  match alookup r.index_map d.id with
  | some _ => none
  | none => some ⟨r.deployment_list ++ [d],
      aupdate r.index_map d.id r.deployment_list.length⟩

/-- Modelled from the spec (§4.1 `upsert`): insert-or-replace in place,
preserving position when the id already exists; index updated with the list. -/
def upsertDeployment (r : Registry) (d : Deployment) : Registry :=
  match alookup r.index_map d.id with
  | some i => ⟨r.deployment_list.set i d, r.index_map⟩
  | none => ⟨r.deployment_list ++ [d],
      aupdate r.index_map d.id r.deployment_list.length⟩

/-- Modelled from the spec (§4.1 `delete`): remove the entry and repair the
index so no index points past the list's new length; absence is a no-op. -/
def deleteDeployment (r : Registry) (did : Nat) : Registry :=
  match alookup r.index_map did with
  | some i =>
      ⟨r.deployment_list.eraseIdx i,
       (aerase r.index_map did).map
         (fun p => (p.1, if i < p.2 then p.2 - 1 else p.2))⟩
  | none => r

/-- Modelled from the spec (§4.1 `get`): O(1) lookup through the index. -/
def getDeployment (r : Registry) (did : Nat) : Option Deployment :=
  match alookup r.index_map did with
  | some i => nth r.deployment_list i
  | none => none

/-- Modelled from the spec (§4.1 `hasId`): O(1) membership test. -/
def hasId (r : Registry) (did : Nat) : Bool :=
  (alookup r.index_map did).isSome

/-- Modelled from the spec (§4.1 `getAll`): the deployments of one group, as
a fresh sequence. -/
def getAllDeployments (r : Registry) (g : Nat) : List Deployment :=
  r.deployment_list.filter (fun d => decide (d.group = g))

theorem upsertDeployment_some {r : Registry} {d : Deployment} {i : Nat}
    (h : alookup r.index_map d.id = some i) :
    upsertDeployment r d = ⟨r.deployment_list.set i d, r.index_map⟩ := by
  rw [upsertDeployment, h]

theorem upsertDeployment_none {r : Registry} {d : Deployment}
    (h : alookup r.index_map d.id = none) :
    upsertDeployment r d = ⟨r.deployment_list ++ [d],
      aupdate r.index_map d.id r.deployment_list.length⟩ := by
  rw [upsertDeployment, h]

theorem deleteDeployment_some {r : Registry} {did i : Nat}
    (h : alookup r.index_map did = some i) :
    deleteDeployment r did = ⟨r.deployment_list.eraseIdx i,
      (aerase r.index_map did).map
        (fun p => (p.1, if i < p.2 then p.2 - 1 else p.2))⟩ := by
  rw [deleteDeployment, h]

theorem deleteDeployment_none {r : Registry} {did : Nat}
    (h : alookup r.index_map did = none) : deleteDeployment r did = r := by
  rw [deleteDeployment, h]

/-- Registry well-formedness: no duplicate ids in the index, every index
entry points inside the list at a deployment bearing that id, and every list
position is indexed under its deployment's id. -/
structure RegistryWF (r : Registry) : Prop where
  keysNodup : (r.index_map.map Prod.fst).Nodup
  indexValid : ∀ p ∈ r.index_map,
    ∃ dep, nth r.deployment_list p.2 = some dep ∧ dep.id = p.1
  complete : ∀ i dep, nth r.deployment_list i = some dep →
    (dep.id, i) ∈ r.index_map

theorem mem_aupdate_self {α : Type} (l : List (Key × α)) (k : Key) (v : α) :
    (k, v) ∈ aupdate l k v := by
  induction l with
  | nil => simp [aupdate]
  | cons p rest ih =>
      obtain ⟨k0, v0⟩ := p
      by_cases hk : k0 = k
      · rw [aupdate_cons, if_pos hk]
        exact List.mem_cons_self _ _
      · rw [aupdate_cons, if_neg hk]
        exact List.mem_cons_of_mem _ ih

theorem mem_aupdate_of_mem {α : Type} (l : List (Key × α)) (k k' : Key)
    (v v' : α) (h : (k', v') ∈ l) (hne : k' ≠ k) : (k', v') ∈ aupdate l k v := by
  induction l with
  | nil => simp at h
  | cons p rest ih =>
      obtain ⟨k0, v0⟩ := p
      by_cases hk : k0 = k
      · rw [aupdate_cons, if_pos hk]
        rcases List.mem_cons.mp h with h1 | h1
        · cases h1
          exact absurd hk hne
        · exact List.mem_cons_of_mem _ h1
      · rw [aupdate_cons, if_neg hk]
        rcases List.mem_cons.mp h with h1 | h1
        · exact h1 ▸ List.mem_cons_self _ _
        · exact List.mem_cons_of_mem _ (ih h1)

/-- Under no-duplicate keys, two entries with the same key coincide. -/
theorem mem_unique_of_nodup {α : Type} {l : List (Key × α)} {k : Key}
    {a b : α} (hnd : (l.map Prod.fst).Nodup) (ha : (k, a) ∈ l)
    (hb : (k, b) ∈ l) : a = b := by
  have h1 := mem_alookup l k a hnd ha
  have h2 := mem_alookup l k b hnd hb
  rw [h1] at h2
  cases h2
  rfl

/-- The index map is exactly as large as the deployment list. -/
theorem RegistryWF.length_eq {r : Registry} (hwf : RegistryWF r) :
    r.index_map.length = r.deployment_list.length := by
  have hnodup : r.index_map.Nodup := List.Nodup.of_map _ hwf.keysNodup
  have hsnd : (r.index_map.map Prod.snd).Nodup := by
    refine List.Nodup.map_on ?_ hnodup
    intro p hp q hq hpq
    obtain ⟨pk, pv⟩ := p
    obtain ⟨qk, qv⟩ := q
    have hpq2 : pv = qv := hpq
    subst hpq2
    obtain ⟨dp, hdp, hdpid⟩ := hwf.indexValid _ hp
    obtain ⟨dq, hdq, hdqid⟩ := hwf.indexValid _ hq
    simp only at hdp hdq hdpid hdqid
    rw [hdp] at hdq
    cases hdq
    rw [← hdpid, ← hdqid]
  have hmem : ∀ j, j ∈ r.index_map.map Prod.snd
      ↔ j ∈ List.range r.deployment_list.length := by
    intro j
    constructor
    · intro hj
      rcases List.mem_map.mp hj with ⟨p, hp, hsndp⟩
      obtain ⟨dp, hdp, _⟩ := hwf.indexValid p hp
      rw [List.mem_range, ← hsndp]
      exact nth_some_lt _ _ _ hdp
    · intro hj
      rw [List.mem_range] at hj
      obtain ⟨dep, hdep⟩ := nth_lt _ _ hj
      exact List.mem_map.mpr ⟨_, hwf.complete j dep hdep, rfl⟩
  have hperm : (r.index_map.map Prod.snd).Perm
      (List.range r.deployment_list.length) :=
    (List.perm_ext_iff_of_nodup hsnd (List.nodup_range _)).mpr hmem
  have := hperm.length_eq
  rw [List.length_map, List.length_range] at this
  exact this

theorem RegistryWF_empty : RegistryWF emptyRegistry := by
  refine ⟨?_, ?_, ?_⟩
  · simp [emptyRegistry]
  · intro p hp
    simp [emptyRegistry] at hp
  · intro i dep h
    cases h

/-- Appending a genuinely new deployment preserves well-formedness. -/
theorem RegistryWF_append {r : Registry} {d : Deployment}
    (hwf : RegistryWF r) (hnone : alookup r.index_map d.id = none) :
    RegistryWF ⟨r.deployment_list ++ [d],
      aupdate r.index_map d.id r.deployment_list.length⟩ := by
  have hkeys := (alookup_eq_none_iff _ _).mp hnone
  refine ⟨aupdate_keys_nodup _ _ _ hwf.keysNodup, ?_, ?_⟩
  · intro p hp
    rcases mem_aupdate_cases _ _ _ _ hp with h1 | h1
    · subst h1
      exact ⟨d, nth_concat_self _ _, rfl⟩
    · obtain ⟨dep, hdep, hdepid⟩ := hwf.indexValid p h1
      refine ⟨dep, ?_, hdepid⟩
      rw [nth_append_left _ _ _ (nth_some_lt _ _ _ hdep)]
      exact hdep
  · intro i dep h
    by_cases hi : i < r.deployment_list.length
    · rw [nth_append_left _ _ _ hi] at h
      have hold := hwf.complete i dep h
      refine mem_aupdate_of_mem _ _ _ _ _ hold ?_
      intro hEq
      exact hkeys (List.mem_map.mpr ⟨_, hold, hEq⟩)
    · have hbound := nth_some_lt _ _ _ h
      rw [List.length_append, List.length_singleton] at hbound
      have hieq : i = r.deployment_list.length := by omega
      subst hieq
      rw [nth_concat_self] at h
      cases h
      exact mem_aupdate_self _ _ _

theorem RegistryWF_add {r r' : Registry} {d : Deployment} (hwf : RegistryWF r)
    (h : addDeployment r d = some r') : RegistryWF r' := by
  rw [addDeployment] at h
  cases hlook : alookup r.index_map d.id with
  | some i => rw [hlook] at h; cases h
  | none =>
      rw [hlook] at h
      cases h
      exact RegistryWF_append hwf hlook

theorem RegistryWF_upsert {r : Registry} (d : Deployment) (hwf : RegistryWF r) :
    RegistryWF (upsertDeployment r d) := by
  cases hlook : alookup r.index_map d.id with
  | none =>
      rw [upsertDeployment_none hlook]
      exact RegistryWF_append hwf hlook
  | some i =>
      rw [upsertDeployment_some hlook]
      have hmem := alookup_mem _ _ _ hlook
      obtain ⟨di, hdi, hdiid⟩ := hwf.indexValid _ hmem
      simp only at hdi hdiid
      have hilt : i < r.deployment_list.length := nth_some_lt _ _ _ hdi
      refine ⟨hwf.keysNodup, ?_, ?_⟩
      · intro p hp
        obtain ⟨pk, pv⟩ := p
        obtain ⟨dp, hdp, hdpid⟩ := hwf.indexValid _ hp
        simp only at hdp hdpid
        by_cases hpi : pv = i
        · subst hpi
          rw [hdp] at hdi
          cases hdi
          refine ⟨d, ?_, ?_⟩
          · exact nth_set_self _ _ _ (nth_some_lt _ _ _ hdp)
          · rw [← hdiid, hdpid]
        · refine ⟨dp, ?_, hdpid⟩
          rw [nth_set_ne _ _ _ _ hpi]
          exact hdp
      · intro j dep h
        have h2 : nth (r.deployment_list.set i d) j = some dep := h
        by_cases hji : j = i
        · subst hji
          have hb : j < r.deployment_list.length := by
            have := nth_some_lt _ _ _ h2
            rwa [List.length_set] at this
          rw [nth_set_self _ _ _ hb] at h2
          cases h2
          exact hmem
        · rw [nth_set_ne _ _ _ _ hji] at h2
          exact hwf.complete j dep h2

theorem RegistryWF_delete {r : Registry} (did : Nat) (hwf : RegistryWF r) :
    RegistryWF (deleteDeployment r did) := by
  cases hlook : alookup r.index_map did with
  | none => rw [deleteDeployment_none hlook]; exact hwf
  | some i =>
      rw [deleteDeployment_some hlook]
      have hmem := alookup_mem _ _ _ hlook
      obtain ⟨di, hdi, hdiid⟩ := hwf.indexValid _ hmem
      simp only at hdi hdiid
      have hilt : i < r.deployment_list.length := nth_some_lt _ _ _ hdi
      have hdistinct : ∀ j dep, nth r.deployment_list j = some dep → j ≠ i →
          dep.id ≠ did := by
        intro j dep hj hji hEq
        have hjmem := hwf.complete j dep hj
        rw [hEq] at hjmem
        exact hji (mem_unique_of_nodup hwf.keysNodup hjmem hmem)
      refine ⟨?_, ?_, ?_⟩
      · have hfst : (((aerase r.index_map did).map
            (fun p => (p.1, if i < p.2 then p.2 - 1 else p.2))).map Prod.fst)
            = (aerase r.index_map did).map Prod.fst := by
          rw [List.map_map]
          rfl
        show (((aerase r.index_map did).map
            (fun p => (p.1, if i < p.2 then p.2 - 1 else p.2))).map Prod.fst).Nodup
        rw [hfst]
        exact aerase_keys_nodup _ _ hwf.keysNodup
      · intro q hq
        rcases List.mem_map.mp hq with ⟨p, hp, hremap⟩
        obtain ⟨pk, pv⟩ := p
        obtain ⟨hpin, hpne⟩ := (mem_aerase _ _ _).mp hp
        obtain ⟨dp, hdp, hdpid⟩ := hwf.indexValid _ hpin
        simp only at hdp hdpid hpne
        have hpnei : pv ≠ i := by
          intro hEq
          subst hEq
          rw [hdp] at hdi
          cases hdi
          rw [hdpid] at hdiid
          exact hpne hdiid
        by_cases hlt2 : i < pv
        · have hq2 : q = (pk, pv - 1) := by
            rw [← hremap]
            simp [hlt2]
          subst hq2
          refine ⟨dp, ?_, hdpid⟩
          show nth (r.deployment_list.eraseIdx i) (pv - 1) = some dp
          rw [nth_eraseIdx_ge _ _ _ (by omega)]
          have hidx : pv - 1 + 1 = pv := by omega
          rw [hidx]
          exact hdp
        · have hq2 : q = (pk, pv) := by
            rw [← hremap]
            simp [hlt2]
          subst hq2
          refine ⟨dp, ?_, hdpid⟩
          show nth (r.deployment_list.eraseIdx i) pv = some dp
          rw [nth_eraseIdx_lt _ _ _ (by omega)]
          exact hdp
      · intro j dep h
        by_cases hji : j < i
        · rw [nth_eraseIdx_lt _ _ _ hji] at h
          have hold := hwf.complete j dep h
          have hkeyne : dep.id ≠ did := hdistinct j dep h (by omega)
          refine List.mem_map.mpr ⟨(dep.id, j),
            (mem_aerase _ _ _).mpr ⟨hold, hkeyne⟩, ?_⟩
          simp only
          rw [if_neg (by omega : ¬ i < j)]
        · rw [nth_eraseIdx_ge _ _ _ (by omega)] at h
          have hold := hwf.complete (j + 1) dep h
          have hkeyne : dep.id ≠ did := hdistinct (j + 1) dep h (by omega)
          refine List.mem_map.mpr ⟨(dep.id, j + 1),
            (mem_aerase _ _ _).mpr ⟨hold, hkeyne⟩, ?_⟩
          simp only
          rw [if_pos (by omega : i < j + 1), Nat.add_sub_cancel]

/-! ### Settled operation sequences -/

inductive RegOp where
  | addOp (d : Deployment)
  | upsertOp (d : Deployment)
  | deleteOp (did : Nat)
deriving DecidableEq

/-- Apply one settled operation; a failed `add` (DuplicateError) leaves the
registry unchanged. -/
def applyOp (r : Registry) : RegOp → Registry
  | .addOp d => (addDeployment r d).getD r
  | .upsertOp d => upsertDeployment r d
  | .deleteOp did => deleteDeployment r did

/-- Apply a settled sequence of registry operations in order. -/
def applyOps (r : Registry) (ops : List RegOp) : Registry :=
  ops.foldl applyOp r

theorem RegistryWF_applyOp {r : Registry} (op : RegOp) (hwf : RegistryWF r) :
    RegistryWF (applyOp r op) := by
  cases op with
  | addOp d =>
      show RegistryWF ((addDeployment r d).getD r)
      cases h : addDeployment r d with
      | none => exact hwf
      | some r' => exact RegistryWF_add hwf h
  | upsertOp d => exact RegistryWF_upsert d hwf
  | deleteOp did => exact RegistryWF_delete did hwf

theorem RegistryWF_applyOps (ops : List RegOp) :
    ∀ r : Registry, RegistryWF r → RegistryWF (applyOps r ops) := by
  induction ops with
  | nil => intro r hwf; exact hwf
  | cons op rest ih =>
      intro r hwf
      exact ih (applyOp r op) (RegistryWF_applyOp op hwf)

/-! ## Memoized group info

Modelled from the spec: `Router.get_model_group_info` and its cached wrapper
`Router._cached_get_model_group_info` are not shipped in `src/` (only their
benchmark `inline_repro.py` is), so the memoization layer is reconstructed
from spec §4.2 (`groupInfo`): a memo table of per-group aggregates,
invalidated by any add/upsert/delete touching that group, so `groupInfo`
never returns a stale cached result. -/

structure GroupInfo where
  ids : List Nat
  totalTpm : Nat
  totalRpm : Nat
deriving DecidableEq

/-- Aggregate static attributes (ids, limits) across a group's deployments. -/
def computeGroupInfo (l : List Deployment) (g : Nat) : GroupInfo :=
  let ds := l.filter (fun d => decide (d.group = g))
  ⟨ds.map Deployment.id, (ds.map Deployment.tpm).sum, (ds.map Deployment.rpm).sum⟩

structure CachedRegistry where
  reg : Registry
  memo : List (Nat × GroupInfo)
deriving DecidableEq

/-- Modelled from the spec (§4.2 `groupInfo`): serve from the memo when
present, otherwise aggregate afresh and memoize. -/
def groupInfoC (c : CachedRegistry) (g : Nat) : GroupInfo × CachedRegistry :=
  match alookup c.memo g with
  | some info => (info, c)
  | none =>
      (computeGroupInfo c.reg.deployment_list g,
       ⟨c.reg, aupdate c.memo g (computeGroupInfo c.reg.deployment_list g)⟩)

/-- Modelled from the spec (§4.2): `add` invalidates the touched group's memo. -/
def addC (c : CachedRegistry) (d : Deployment) : Option CachedRegistry :=
  (addDeployment c.reg d).map (fun r => ⟨r, aerase c.memo d.group⟩)

/-- Modelled from the spec (§4.2): `upsert` invalidates both the new and the
replaced deployment's groups. -/
def upsertC (c : CachedRegistry) (d : Deployment) : CachedRegistry :=
  match alookup c.reg.index_map d.id with
  | some i =>
      ⟨upsertDeployment c.reg d,
       aerase (aerase c.memo d.group)
         (match nth c.reg.deployment_list i with
          | some d0 => d0.group
          | none => d.group)⟩
  | none => ⟨upsertDeployment c.reg d, aerase c.memo d.group⟩

/-- Modelled from the spec (§4.2): `delete` invalidates the deleted
deployment's group. -/
def delC (c : CachedRegistry) (did : Nat) : CachedRegistry :=
  match alookup c.reg.index_map did with
  | some i =>
      ⟨deleteDeployment c.reg did,
       aerase c.memo
         (match nth c.reg.deployment_list i with
          | some d0 => d0.group
          | none => did)⟩
  | none => c

/-- Every memoized aggregate agrees with a fresh aggregation. -/
def MemoCoherent (c : CachedRegistry) : Prop :=
  ∀ g info, alookup c.memo g = some info →
    info = computeGroupInfo c.reg.deployment_list g

theorem nth_none_of_ge {α : Type} : ∀ (l : List α) (n : Nat),
    l.length ≤ n → nth l n = none := by
  intro l
  induction l with
  | nil => intro n h; rfl
  | cons a tl ih =>
      intro n h
      cases n with
      | zero => simp at h
      | succ m =>
          rw [List.length_cons] at h
          exact ih m (by omega)

theorem filter_append_singleton_ne {p : Deployment → Bool} (l : List Deployment)
    (d : Deployment) (h : p d = false) :
    (l ++ [d]).filter p = l.filter p := by
  rw [List.filter_append]
  simp [List.filter_cons, h]

theorem filter_set_ne {p : Deployment → Bool} :
    ∀ (l : List Deployment) (i : Nat) (d0 d : Deployment),
      nth l i = some d0 → p d0 = false → p d = false →
      (l.set i d).filter p = l.filter p := by
  intro l
  induction l with
  | nil => intro i d0 d h _ _; cases h
  | cons a tl ih =>
      intro i d0 d h h0 hd
      cases i with
      | zero =>
          cases h
          rw [List.set_cons_zero, List.filter_cons, List.filter_cons, h0, hd]
          simp
      | succ m =>
          rw [List.set_cons_succ, List.filter_cons, List.filter_cons]
          rw [ih m d0 d h h0 hd]

theorem filter_eraseIdx_ne {p : Deployment → Bool} :
    ∀ (l : List Deployment) (i : Nat) (d0 : Deployment),
      nth l i = some d0 → p d0 = false →
      (l.eraseIdx i).filter p = l.filter p := by
  intro l
  induction l with
  | nil => intro i d0 h _; cases h
  | cons a tl ih =>
      intro i d0 h h0
      cases i with
      | zero =>
          cases h
          rw [List.eraseIdx_cons_zero, List.filter_cons, h0]
          simp
      | succ m =>
          rw [List.eraseIdx_cons_succ, List.filter_cons, List.filter_cons]
          rw [ih m d0 h h0]

theorem computeGroupInfo_append_ne (l : List Deployment) (d : Deployment)
    (h0 : Nat) (h : d.group ≠ h0) :
    computeGroupInfo (l ++ [d]) h0 = computeGroupInfo l h0 := by
  rw [computeGroupInfo, computeGroupInfo,
    filter_append_singleton_ne l d (by simp [h])]

theorem computeGroupInfo_set_ne (l : List Deployment) (i : Nat)
    (d0 d : Deployment) (h0 : Nat) (hn : nth l i = some d0)
    (hne0 : d0.group ≠ h0) (hned : d.group ≠ h0) :
    computeGroupInfo (l.set i d) h0 = computeGroupInfo l h0 := by
  rw [computeGroupInfo, computeGroupInfo,
    filter_set_ne l i d0 d hn (by simp [hne0]) (by simp [hned])]

theorem computeGroupInfo_eraseIdx_ne (l : List Deployment) (i : Nat)
    (d0 : Deployment) (h0 : Nat) (hn : nth l i = some d0)
    (hne0 : d0.group ≠ h0) :
    computeGroupInfo (l.eraseIdx i) h0 = computeGroupInfo l h0 := by
  rw [computeGroupInfo, computeGroupInfo,
    filter_eraseIdx_ne l i d0 hn (by simp [hne0])]

/-- A fresh aggregation after a memo miss or hit never serves a stale value. -/
theorem groupInfoC_fresh {c : CachedRegistry} (g : Nat) (hco : MemoCoherent c) :
    (groupInfoC c g).1 = computeGroupInfo c.reg.deployment_list g := by
  rw [groupInfoC]
  cases hl : alookup c.memo g with
  | none => rfl
  | some info => exact hco g info hl

theorem MemoCoherent_addC {c c' : CachedRegistry} {d : Deployment}
    (hco : MemoCoherent c) (h : addC c d = some c') : MemoCoherent c' := by
  rw [addC, addDeployment] at h
  cases hlook : alookup c.reg.index_map d.id with
  | some i => rw [hlook] at h; cases h
  | none =>
      rw [hlook] at h
      simp only [Option.map_some] at h
      cases h
      intro g info hg
      rw [show (⟨⟨c.reg.deployment_list ++ [d],
            aupdate c.reg.index_map d.id c.reg.deployment_list.length⟩,
            aerase c.memo d.group⟩ : CachedRegistry).memo
          = aerase c.memo d.group from rfl] at hg
      have hgmem := alookup_mem _ _ _ hg
      obtain ⟨hgin, hgne⟩ := (mem_aerase _ _ _).mp hgmem
      have hgne2 : g ≠ d.group := hgne
      have hgold : alookup c.memo g = some info := by
        have := alookup_aerase_ne c.memo d.group g hgne2
        rw [← this]
        exact hg
      rw [hco g info hgold]
      exact (computeGroupInfo_append_ne _ _ _ (fun hEq => hgne2 hEq.symm)).symm

theorem alookup_aerase_some {α : Type} {l : List (Key × α)} {k k' : Key}
    {v : α} (h : alookup (aerase l k) k' = some v) :
    alookup l k' = some v ∧ k' ≠ k := by
  by_cases hk : k' = k
  · subst hk
    rw [alookup_aerase_self] at h
    cases h
  · rw [alookup_aerase_ne _ _ _ hk] at h
    exact ⟨h, hk⟩

theorem set_of_nth_none {α : Type} :
    ∀ (l : List α) (i : Nat) (d : α), nth l i = none → l.set i d = l := by
  intro l
  induction l with
  | nil => intro i d _; rfl
  | cons a tl ih =>
      intro i d h
      cases i with
      | zero => cases h
      | succ m =>
          rw [List.set_cons_succ, ih m d h]

theorem eraseIdx_of_nth_none {α : Type} :
    ∀ (l : List α) (i : Nat), nth l i = none → l.eraseIdx i = l := by
  intro l
  induction l with
  | nil => intro i _; rfl
  | cons a tl ih =>
      intro i h
      cases i with
      | zero => cases h
      | succ m =>
          rw [List.eraseIdx_cons_succ, ih m h]

theorem MemoCoherent_upsertC {c : CachedRegistry} (d : Deployment)
    (hco : MemoCoherent c) : MemoCoherent (upsertC c d) := by
  rw [upsertC]
  cases hlook : alookup c.reg.index_map d.id with
  | none =>
      intro g info hg
      have hg2 : alookup (aerase c.memo d.group) g = some info := hg
      obtain ⟨hgold, hgne⟩ := alookup_aerase_some hg2
      rw [hco g info hgold, upsertDeployment_none hlook]
      exact (computeGroupInfo_append_ne _ _ _ (fun hEq => hgne hEq.symm)).symm
  | some i =>
      cases hnth : nth c.reg.deployment_list i with
      | none =>
          intro g info hg
          simp only at hg ⊢
          rw [hnth] at hg
          have hg2 : alookup (aerase (aerase c.memo d.group) d.group) g
              = some info := hg
          obtain ⟨hg3, _⟩ := alookup_aerase_some hg2
          obtain ⟨hgold, hgne⟩ := alookup_aerase_some hg3
          rw [hco g info hgold, upsertDeployment_some hlook]
          rw [show (⟨c.reg.deployment_list.set i d, c.reg.index_map⟩ :
                Registry).deployment_list = c.reg.deployment_list.set i d from rfl,
              set_of_nth_none _ _ _ hnth]
      | some d0 =>
          intro g info hg
          simp only at hg ⊢
          rw [hnth] at hg
          have hg2 : alookup (aerase (aerase c.memo d.group) d0.group) g
              = some info := hg
          obtain ⟨hg3, hgne0⟩ := alookup_aerase_some hg2
          obtain ⟨hgold, hgne⟩ := alookup_aerase_some hg3
          rw [hco g info hgold, upsertDeployment_some hlook]
          exact (computeGroupInfo_set_ne _ _ _ _ _ hnth
            (fun hEq => hgne0 hEq.symm) (fun hEq => hgne hEq.symm)).symm

theorem MemoCoherent_delC {c : CachedRegistry} (did : Nat)
    (hco : MemoCoherent c) : MemoCoherent (delC c did) := by
  rw [delC]
  cases hlook : alookup c.reg.index_map did with
  | none => exact hco
  | some i =>
      cases hnth : nth c.reg.deployment_list i with
      | none =>
          intro g info hg
          simp only at hg ⊢
          rw [hnth] at hg
          have hg2 : alookup (aerase c.memo did) g = some info := hg
          obtain ⟨hgold, hgne⟩ := alookup_aerase_some hg2
          rw [hco g info hgold, deleteDeployment_some hlook]
          rw [show (⟨c.reg.deployment_list.eraseIdx i, (aerase c.reg.index_map did).map
                (fun p => (p.1, if i < p.2 then p.2 - 1 else p.2))⟩ :
                Registry).deployment_list = c.reg.deployment_list.eraseIdx i from rfl,
              eraseIdx_of_nth_none _ _ hnth]
      | some d0 =>
          intro g info hg
          simp only at hg ⊢
          rw [hnth] at hg
          have hg2 : alookup (aerase c.memo d0.group) g = some info := hg
          obtain ⟨hgold, hgne⟩ := alookup_aerase_some hg2
          rw [hco g info hgold, deleteDeployment_some hlook]
          exact (computeGroupInfo_eraseIdx_ne _ _ _ _ hnth
            (fun hEq => hgne hEq.symm)).symm

/-- Immediately after a successful `add`, `groupInfo` for the new
deployment's group is freshly aggregated and reflects the deployment. -/
theorem groupInfoC_after_addC {c c' : CachedRegistry} {d : Deployment}
    (hco : MemoCoherent c) (h : addC c d = some c') :
    (groupInfoC c' d.group).1 = computeGroupInfo c'.reg.deployment_list d.group
      ∧ d.id ∈ ((groupInfoC c' d.group).1).ids
      ∧ d.tpm ≤ ((groupInfoC c' d.group).1).totalTpm := by
  have hco' := MemoCoherent_addC hco h
  have hfresh := groupInfoC_fresh d.group hco'
  refine ⟨hfresh, ?_, ?_⟩
  · rw [hfresh]
    rw [addC, addDeployment] at h
    cases hlook : alookup c.reg.index_map d.id with
    | some i => rw [hlook] at h; cases h
    | none =>
        rw [hlook] at h
        simp only [Option.map_some] at h
        cases h
        show d.id ∈ (computeGroupInfo (c.reg.deployment_list ++ [d]) d.group).ids
        rw [computeGroupInfo]
        refine List.mem_map.mpr ⟨d, ?_, rfl⟩
        refine List.mem_filter.mpr ⟨?_, by simp⟩
        exact List.mem_append.mpr (Or.inr (List.mem_singleton.mpr rfl))
  · rw [hfresh]
    rw [addC, addDeployment] at h
    cases hlook : alookup c.reg.index_map d.id with
    | some i => rw [hlook] at h; cases h
    | none =>
        rw [hlook] at h
        simp only [Option.map_some] at h
        cases h
        show d.tpm ≤ (computeGroupInfo (c.reg.deployment_list ++ [d]) d.group).totalTpm
        rw [computeGroupInfo]
        refine List.single_le_sum (fun x _ => Nat.zero_le x) _ ?_
        refine List.mem_map.mpr ⟨d, ?_, rfl⟩
        refine List.mem_filter.mpr ⟨?_, by simp⟩
        exact List.mem_append.mpr (Or.inr (List.mem_singleton.mpr rfl))

/-! ## RateLimiter

Modelled from the spec: `_PROXY_DynamicRateLimitHandler` is not shipped in
`src/` (only its tests are), so admission control is reconstructed from spec
§4.6 ("RateLimiter") and §7: `checkAvailableUsage` turns the backend usage
read into the availability tuple, propagating any backend error instead of
returning a tuple of placeholder nulls; `admitRequest` rejects on a backend
error (fail-closed) and raises a distinct over-limit error on insufficient
quota. -/

inductive CallType where
  | completion
  | textCompletion
  | embedding
  | imageGeneration
deriving DecidableEq

abbrev BackendErr := Nat

inductive AdmitError where
  | backendUnavailable (e : BackendErr)
  | overLimit
deriving DecidableEq

/-- Modelled from the spec (§4.6): compute the available-usage tuple
`(available_tpm, available_rpm, model_tpm, model_rpm, active_projects)` from
the backend read of `(current_tpm, current_rpm)`; a backend read error is
re-raised, never converted into a tuple of `none` placeholders. -/
def checkAvailableUsage (read : Except BackendErr (Nat × Nat))
    (modelTpm modelRpm : Nat) :
    Except BackendErr (Option Nat × Option Nat × Option Nat × Option Nat × Option Nat) :=
  match read with
  | .error e => .error e
  | .ok (currentTpm, currentRpm) =>
      .ok (some (modelTpm - currentTpm), some (modelRpm - currentRpm),
           some modelTpm, some modelRpm, some 1)

/-- Tokens the admission check charges against the TPM budget for one call of
this type (image generation is request-only). -/
def neededTokens (ct : CallType) (requested : Nat) : Nat :=
  match ct with
  | .completion => requested
  | .textCompletion => requested
  | .embedding => requested
  | .imageGeneration => 0

/-- Modelled from the spec (§4.6 `admit`): read current usage via the cache,
compare with the configured limits; a backend error propagates as a rejecting
error (fail-closed), insufficient quota raises a distinct over-limit error,
and sufficient quota admits. -/
def admitRequest (ct : CallType) (read : Except BackendErr (Nat × Nat))
    (modelTpm modelRpm requested : Nat) : Except AdmitError Unit :=
  match checkAvailableUsage read modelTpm modelRpm with
  | .error e => .error (.backendUnavailable e)
  | .ok (availTpm, availRpm, _, _, _) =>
      match availTpm, availRpm with
      | some t, some r =>
          if neededTokens ct requested ≤ t ∧ 1 ≤ r then .ok ()
          else .error .overLimit
      | _, _ => .error .overLimit

/-- Well-formedness is insensitive to the clock moving forward. -/
theorem WFAt_mono {now now' : Time} {c : UsageCache} (h : now ≤ now')
    (hwf : WFAt now c) : WFAt now' c :=
  ⟨hwf.cacheNodup, hwf.ttlNodup, hwf.sameKeys, hwf.authCount,
   fun k e' hm hn => lt_of_lt_of_le (hwf.stalePast k e' hm hn) h⟩

/-- A `set` on an expired-but-present key in a within-bound cache overwrites
the value and assigns the fresh expiration, with no eviction triggered. -/
theorem setCache_expired_eq {now : Time} {c : UsageCache} {key : Key} {e : Time}
    (v : Val) (ttl : Time)
    (hc : (alookup c.cache_dict key).isSome = true)
    (ht : alookup c.ttl_dict key = some e) (he : e < now)
    (hlen : c.cache_dict.length ≤ c.max_size_in_memory) :
    setCache now key v ttl c = pushTtl now key ttl (setValue key v c) := by
  rw [setCache, scheduleTtl_push ttl
    (shouldReschedule_expired (setValue_ttl key v c ▸ ht) he), maybeEvict]
  rw [if_neg]
  rw [pushTtl_max, setValue_max, pushTtl_cache, setValue_cache,
    aupdate_length_of_mem _ _ _ hc]
  omega

/-! ## Claim theorems -/

/-- C1: for every key, increment amount, and number of concurrent callers
(any mix of OS threads and cooperative tasks, each running `increment(k, v)`
once as the atomic unit mandated by §4.4/§5, so every interleaving is some
order of the atomic increments), the counter at the key ends at its initial
value plus the amount times the number of callers — no increment is lost or
applied twice. -/
theorem C1_concurrent_increments_exact (now : Time) (key : Key) (delta : Val)
    (ttl : Time) (callers : List Bool) (c : UsageCache) (v0 : Val) (e : Time)
    (hc : alookup c.cache_dict key = some v0)
    (ht : alookup c.ttl_dict key = some e) (he : ¬ e < now)
    (hlen : c.cache_dict.length ≤ c.max_size_in_memory) :
    alookup (runIncrements now key delta ttl callers c).cache_dict key
      = some (v0 + delta * (callers.length : Int)) :=
  runIncrements_value delta ttl callers c v0 e hc ht he hlen

theorem C1_witness :
    alookup (runIncrements 0 1 2 60 [true, false, true]
      ⟨10, [(1, 0)], [(1, 100)], [(100, 1)]⟩).cache_dict 1 = some 6 := by
  have h := C1_concurrent_increments_exact 0 1 2 60 [true, false, true]
    ⟨10, [(1, 0)], [(1, 100)], [(100, 1)]⟩ 0 100 (by decide) (by decide)
    (by decide) (by decide)
  simpa using h

/-- C2: for every call type, a backend read error during the usage check
makes `admit` raise a rejecting error — it never returns normally — and the
usage-check function itself raises rather than returning any tuple of
placeholder nulls. -/
theorem C2_fail_closed (ct : CallType) (e : BackendErr)
    (modelTpm modelRpm requested : Nat) :
    admitRequest ct (.error e) modelTpm modelRpm requested
      = .error (.backendUnavailable e)
    ∧ ∀ res, checkAvailableUsage (.error e) modelTpm modelRpm ≠ .ok res := by
  constructor
  · rfl
  · intro res h
    rw [checkAvailableUsage] at h
    cases h

theorem C2_witness :
    admitRequest CallType.completion (.error 7) 100 10 5
      = .error (.backendUnavailable 7)
    ∧ checkAvailableUsage (.error 7) 100 10
        ≠ .ok (none, none, none, none, none) :=
  ⟨(C2_fail_closed CallType.completion 7 100 10 5).1,
   (C2_fail_closed CallType.completion 7 100 10 5).2 (none, none, none, none, none)⟩

/-- C3: a `logRetry` call for one context never modifies any other context's
history; after any interleaved call sequence, each context's history equals
what its own calls alone produce (the histories live in disjoint per-context
slots, the functional counterpart of never sharing one list object), and it
contains only records produced by that context's own attempts. -/
theorem C3_retry_isolation :
    (∀ (st : List (Nat × CtxHistory)) (a b exc : Nat), b ≠ a →
      histOf (logRetry st a exc) b = histOf st b)
    ∧ ∀ (calls : List (Nat × Nat)) (ctx : Nat),
        histOf (applyCalls calls []) ctx
          = histOf (applyCalls (calls.filter (fun c => decide (c.1 = ctx))) []) ctx
        ∧ ∀ r ∈ histOf (applyCalls calls []) ctx, r.ctxId = ctx := by
  constructor
  · intro st a b exc hne
    rw [histOf, histOf, logRetry_frame st a b exc hne]
  · intro calls ctx
    constructor
    · rw [histOf, histOf, applyCalls_project ctx calls [] [] rfl]
    · refine applyCalls_own_records ctx calls [] ?_
      intro r hr
      cases hr

theorem C3_witness :
    histOf (logRetry (logRetry [] 0 5) 0 7) 1 = histOf (logRetry [] 0 5) 1
    ∧ histOf (applyCalls [(0, 5), (1, 6), (0, 7)] []) 0
        = histOf (applyCalls ([(0, 5), (1, 6), (0, 7)].filter
            (fun c => decide (c.1 = 0))) []) 0
    ∧ (⟨0, 1, 5⟩ : RetryRecord).ctxId = 0 :=
  ⟨C3_retry_isolation.1 (logRetry [] 0 5) 0 1 7 (by decide),
   (C3_retry_isolation.2 [(0, 5), (1, 6), (0, 7)] 0).1,
   (C3_retry_isolation.2 [(0, 5), (1, 6), (0, 7)] 0).2 ⟨0, 1, 5⟩ (by decide)⟩

theorem attemptRecords_length (ctx : Nat) (es : List Nat) :
    (attemptRecords ctx es).length = es.length := by
  rw [attemptRecords, List.length_map, List.length_zip, List.length_range]
  omega

/-- C4: after `n ≥ 3` `logRetry` calls for one context, the context's history
has exactly 3 entries — the 3 most recent attempts, older ones dropped; in
particular 5 calls end with the records of attempts 3, 4 and 5. -/
theorem C4_retry_cap (ctx : Nat) (es : List Nat) (hn : 3 ≤ es.length) :
    histOf (applyCalls (es.map (fun e => (ctx, e))) []) ctx
      = (attemptRecords ctx es).drop (es.length - 3)
    ∧ ((attemptRecords ctx es).drop (es.length - 3)).length = 3 := by
  constructor
  · rw [histOf, applyCalls_single ctx es]
    rw [lastThree, attemptRecords_length]
  · rw [List.length_drop, attemptRecords_length]
    omega

theorem C4_witness :
    histOf (applyCalls ([10, 11, 12, 13, 14].map (fun e => (0, e))) []) 0
      = (attemptRecords 0 [10, 11, 12, 13, 14]).drop 2
    ∧ ((attemptRecords 0 [10, 11, 12, 13, 14]).drop 2).length = 3
    ∧ (attemptRecords 0 [10, 11, 12, 13, 14]).drop 2
        = [⟨0, 3, 12⟩, ⟨0, 4, 13⟩, ⟨0, 5, 14⟩] := by
  have h := C4_retry_cap 0 [10, 11, 12, 13, 14] (by decide)
  exact ⟨h.1, h.2, by decide⟩

/-- C5 (counterexample): over an existing key whose expiration has already
passed, `set` does NOT keep the original expiration — the key set at time 0
with ttl 1 (expiration 1) exists when `set` runs again at time 2, yet its
expiration becomes 2 + 10 = 12 ≠ 1, as the repository's own test
`test_in_memory_cache_ttl_allow_override` demands. -/
theorem C5_counterexample :
    alookup (setCache 0 1 5 1 (emptyCache 10)).cache_dict 1 = some 5
    ∧ alookup (setCache 0 1 5 1 (emptyCache 10)).ttl_dict 1 = some 1
    ∧ alookup (setCache 2 1 6 10 (setCache 0 1 5 1 (emptyCache 10))).ttl_dict 1
        = some 12
    ∧ (12 : Time) ≠ 1 := by
  decide

/-- C5 (amended): `set` on an existing key overwrites the stored value and
keeps the original expiration as long as that expiration has not yet passed;
once the existing entry is already expired, `set` assigns the fresh
expiration `now + ttl` instead. -/
theorem C5_amended_first_write_wins (now : Time) (key : Key) (v : Val)
    (ttl : Time) (c : UsageCache) (v0 : Val) (e : Time)
    (hc : alookup c.cache_dict key = some v0)
    (ht : alookup c.ttl_dict key = some e)
    (hlen : c.cache_dict.length ≤ c.max_size_in_memory) :
    alookup (setCache now key v ttl c).cache_dict key = some v
    ∧ alookup (setCache now key v ttl c).ttl_dict key
        = some (if e < now then now + ttl else e) := by
  have hsome : (alookup c.cache_dict key).isSome = true := by rw [hc]; rfl
  by_cases he : e < now
  · rw [setCache_expired_eq v ttl hsome ht he hlen, if_pos he]
    constructor
    · rw [pushTtl_cache, setValue_cache]
      exact alookup_aupdate_self _ _ _
    · rw [pushTtl_ttl, setValue_ttl]
      exact alookup_aupdate_self _ _ _
  · rw [setCache_live_eq v ttl hsome ht he hlen, if_neg he]
    constructor
    · rw [setValue_cache]
      exact alookup_aupdate_self _ _ _
    · rw [setValue_ttl]
      exact ht

theorem C5_witness :
    alookup (setCache 2 1 6 10 (setCache 0 1 5 1 (emptyCache 10))).cache_dict 1
      = some 6
    ∧ alookup (setCache 2 1 6 10 (setCache 0 1 5 1 (emptyCache 10))).ttl_dict 1
        = some 12 := by
  have h := C5_amended_first_write_wins 2 1 6 10
    (setCache 0 1 5 1 (emptyCache 10)) 5 1 (by decide) (by decide) (by decide)
  simpa using h

/-- The claim's concrete story: bound 3, keys 0..2 written at times 0, 1, 2
with a long ttl, then key 3 written at time 3. -/
def c6example : UsageCache :=
  setCache 3 3 30 1000 (setCache 2 2 20 1000
    (setCache 1 1 10 1000 (setCache 0 0 0 1000 (emptyCache 3))))

/-- C6: when eviction runs it removes every already-expired entry, and a live
entry is evicted only while earlier-expiring live entries cannot outlive it —
an evicted live key's expiration never exceeds a surviving live key's; in
particular with bound 3 inserting keys 0..2 with long TTLs and then key 3
evicts exactly key 0, leaving keys 1, 2, 3. -/
theorem C6_eviction_order :
    (∀ (now : Time) (c : UsageCache), WFAt now c →
      (∀ k, expiredAt now c k = true →
        alookup (evictCache now c).cache_dict k = none)
      ∧ ∀ k1 k2 e1 e2 v, alookup c.ttl_dict k1 = some e1 → ¬ e1 < now →
          alookup c.ttl_dict k2 = some e2 → ¬ e2 < now →
          alookup (evictCache now c).cache_dict k1 = none →
          alookup (evictCache now c).cache_dict k2 = some v → e1 ≤ e2)
    ∧ (alookup c6example.cache_dict 0 = none
       ∧ alookup c6example.cache_dict 1 = some 10
       ∧ alookup c6example.cache_dict 2 = some 20
       ∧ alookup c6example.cache_dict 3 = some 30
       ∧ c6example.cache_dict.length = 3) := by
  constructor
  · intro now c hwf
    constructor
    · intro k hexp
      exact evictCache_removes_expired hwf k hexp
    · intro k1 k2 e1 e2 v ht1 hl1 ht2 hl2 hr1 hr2
      exact evictCache_earliest_first hwf k1 k2 e1 e2 v ht1 hl1 ht2 hl2 hr1 hr2
  · refine ⟨?_, ?_, ?_, ?_, ?_⟩ <;> decide

theorem C6_witness :
    alookup (evictCache 5 (setCache 0 9 1 1 (emptyCache 5))).cache_dict 9 = none
    ∧ alookup c6example.cache_dict 0 = none := by
  have hwf : WFAt 5 (setCache 0 9 1 1 (emptyCache 5)) :=
    WFAt_mono (by decide) (setCache_WF 9 1 1 (WF_empty 0 5))
  refine ⟨(C6_eviction_order.1 5 _ hwf).1 9 (by decide), C6_eviction_order.2.1⟩

/-- C7: after any `set` the cache holds no more entries than its configured
bound; the heap's logical size always equals the number of distinct live
keys; and repeated `set` calls on a single key never grow the heap — 1000
repeated sets from empty leave exactly 1 heap entry. -/
theorem C7_bounded_size_and_heap :
    (∀ (now : Time) (key : Key) (v : Val) (ttl : Time) (c : UsageCache),
      WFAt now c →
      (setCache now key v ttl c).cache_dict.length ≤ c.max_size_in_memory)
    ∧ (∀ (now : Time) (c : UsageCache), WFAt now c →
        heapLogicalSize c = c.ttl_dict.length)
    ∧ ∀ (now : Time) (key : Key) (v : Val) (ttl : Time) (maxSize n : Nat),
        1 ≤ maxSize → 1 ≤ n →
        (iterateSet now key v ttl n (emptyCache maxSize)).expiration_heap.length
          = 1 := by
  refine ⟨?_, ?_, ?_⟩
  · intro now key v ttl c hwf
    exact setCache_length key v ttl hwf
  · intro now c hwf
    exact heapLogicalSize_eq hwf
  · intro now key v ttl maxSize n hM hn
    rw [iterateSet_heap_one v ttl hM n hn]
    rfl

theorem C7_witness :
    (setCache 0 1 5 60 (emptyCache 10)).cache_dict.length
      ≤ (emptyCache 10).max_size_in_memory
    ∧ heapLogicalSize (emptyCache 10) = (emptyCache 10).ttl_dict.length
    ∧ (iterateSet 0 1 5 60 1000 (emptyCache 10)).expiration_heap.length = 1 :=
  ⟨C7_bounded_size_and_heap.1 0 1 5 60 (emptyCache 10) (WF_empty 0 10),
   C7_bounded_size_and_heap.2.1 0 (emptyCache 10) (WF_empty 0 10),
   C7_bounded_size_and_heap.2.2 0 1 5 60 10 1000 (by decide) (by decide)⟩

/-- C8: after every settled sequence of add, upsert and delete operations the
index map is exactly as large as the deployment list, every stored index lies
strictly inside the list, and the deployment stored at an id's index bears
that id. -/
theorem C8_registry_invariants (ops : List RegOp) :
    (applyOps emptyRegistry ops).index_map.length
      = (applyOps emptyRegistry ops).deployment_list.length
    ∧ (∀ p ∈ (applyOps emptyRegistry ops).index_map,
        p.2 < (applyOps emptyRegistry ops).deployment_list.length)
    ∧ ∀ p ∈ (applyOps emptyRegistry ops).index_map,
        ∃ dep, nth (applyOps emptyRegistry ops).deployment_list p.2 = some dep
          ∧ dep.id = p.1 := by
  have hwf := RegistryWF_applyOps ops emptyRegistry RegistryWF_empty
  refine ⟨hwf.length_eq, ?_, hwf.indexValid⟩
  intro p hp
  obtain ⟨dep, hdep, _⟩ := hwf.indexValid p hp
  exact nth_some_lt _ _ _ hdep

theorem C8_witness :
    (applyOps emptyRegistry [RegOp.addOp ⟨1, 0, 100, 10⟩,
        RegOp.addOp ⟨2, 0, 50, 5⟩, RegOp.deleteOp 1]).index_map.length
      = (applyOps emptyRegistry [RegOp.addOp ⟨1, 0, 100, 10⟩,
          RegOp.addOp ⟨2, 0, 50, 5⟩, RegOp.deleteOp 1]).deployment_list.length
    ∧ ((2, 0) : Nat × Nat).2 < (applyOps emptyRegistry
        [RegOp.addOp ⟨1, 0, 100, 10⟩, RegOp.addOp ⟨2, 0, 50, 5⟩,
         RegOp.deleteOp 1]).deployment_list.length
    ∧ ∃ dep, nth (applyOps emptyRegistry [RegOp.addOp ⟨1, 0, 100, 10⟩,
        RegOp.addOp ⟨2, 0, 50, 5⟩, RegOp.deleteOp 1]).deployment_list
          ((2, 0) : Nat × Nat).2 = some dep ∧ dep.id = ((2, 0) : Nat × Nat).1 :=
  ⟨(C8_registry_invariants [RegOp.addOp ⟨1, 0, 100, 10⟩,
      RegOp.addOp ⟨2, 0, 50, 5⟩, RegOp.deleteOp 1]).1,
   (C8_registry_invariants [RegOp.addOp ⟨1, 0, 100, 10⟩,
      RegOp.addOp ⟨2, 0, 50, 5⟩, RegOp.deleteOp 1]).2.1 (2, 0) (by decide),
   (C8_registry_invariants [RegOp.addOp ⟨1, 0, 100, 10⟩,
      RegOp.addOp ⟨2, 0, 50, 5⟩, RegOp.deleteOp 1]).2.2 (2, 0) (by decide)⟩

/-- C9: every memoized `groupInfo` aggregate is invalidated by any add,
upsert or delete touching its group, so `groupInfo` always equals a fresh
aggregation over the current deployments; immediately after a successful
`add` the new deployment's group info reflects its id and limits. -/
theorem C9_group_info_never_stale :
    (∀ (c c' : CachedRegistry) (d : Deployment), MemoCoherent c →
      addC c d = some c' → MemoCoherent c')
    ∧ (∀ (c : CachedRegistry) (d : Deployment), MemoCoherent c →
        MemoCoherent (upsertC c d))
    ∧ (∀ (c : CachedRegistry) (did : Nat), MemoCoherent c →
        MemoCoherent (delC c did))
    ∧ (∀ (c : CachedRegistry) (g : Nat), MemoCoherent c →
        (groupInfoC c g).1 = computeGroupInfo c.reg.deployment_list g)
    ∧ ∀ (c c' : CachedRegistry) (d : Deployment), MemoCoherent c →
        addC c d = some c' →
        (groupInfoC c' d.group).1
            = computeGroupInfo c'.reg.deployment_list d.group
        ∧ d.id ∈ ((groupInfoC c' d.group).1).ids
        ∧ d.tpm ≤ ((groupInfoC c' d.group).1).totalTpm := by
  refine ⟨?_, ?_, ?_, ?_, ?_⟩
  · intro c c' d hco h
    exact MemoCoherent_addC hco h
  · intro c d hco
    exact MemoCoherent_upsertC d hco
  · intro c did hco
    exact MemoCoherent_delC did hco
  · intro c g hco
    exact groupInfoC_fresh g hco
  · intro c c' d hco h
    exact groupInfoC_after_addC hco h

theorem MemoCoherent_emptyC : MemoCoherent ⟨emptyRegistry, []⟩ := by
  intro g info h
  cases h

theorem C9_witness :
    MemoCoherent (upsertC ⟨emptyRegistry, []⟩ ⟨1, 2, 100, 10⟩)
    ∧ (groupInfoC ⟨emptyRegistry, []⟩ 2).1
        = computeGroupInfo emptyRegistry.deployment_list 2
    ∧ 1 ∈ ((groupInfoC ⟨⟨[⟨1, 2, 100, 10⟩], [(1, 0)]⟩, []⟩ 2).1).ids :=
  ⟨C9_group_info_never_stale.2.1 ⟨emptyRegistry, []⟩ ⟨1, 2, 100, 10⟩
      MemoCoherent_emptyC,
   C9_group_info_never_stale.2.2.2.1 ⟨emptyRegistry, []⟩ 2 MemoCoherent_emptyC,
   (C9_group_info_never_stale.2.2.2.2 ⟨emptyRegistry, []⟩
      ⟨⟨[⟨1, 2, 100, 10⟩], [(1, 0)]⟩, []⟩ ⟨1, 2, 100, 10⟩
      MemoCoherent_emptyC (by decide)).2.1⟩

/-- C10: the value store and the side expiration map always cover the same
keys — after any `set`, `get` or `increment` on a well-formed cache, a key
has a stored value exactly when it has a scheduled expiration. -/
theorem C10_stores_cover_same_keys (now : Time) (c : UsageCache)
    (hwf : WFAt now c) :
    (∀ (key : Key) (v : Val) (ttl : Time) (k : Key),
      (alookup (setCache now key v ttl c).cache_dict k).isSome
        = (alookup (setCache now key v ttl c).ttl_dict k).isSome)
    ∧ (∀ (key k : Key),
        (alookup (getCache now key c).2.cache_dict k).isSome
          = (alookup (getCache now key c).2.ttl_dict k).isSome)
    ∧ ∀ (key : Key) (delta : Val) (ttl : Time) (k : Key),
        (alookup (incrementCache now key delta ttl c).2.cache_dict k).isSome
          = (alookup (incrementCache now key delta ttl c).2.ttl_dict k).isSome :=
  ⟨fun key v ttl k => (setCache_WF key v ttl hwf).sameKeys k,
   fun key k => (getCache_WF key hwf).sameKeys k,
   fun key delta ttl k => (incrementCache_WF key delta ttl hwf).sameKeys k⟩

theorem C10_witness :
    (alookup (setCache 0 1 5 60 (emptyCache 10)).cache_dict 1).isSome
      = (alookup (setCache 0 1 5 60 (emptyCache 10)).ttl_dict 1).isSome
    ∧ (alookup (incrementCache 0 2 3 60 (emptyCache 10)).2.cache_dict 2).isSome
        = (alookup (incrementCache 0 2 3 60 (emptyCache 10)).2.ttl_dict 2).isSome :=
  ⟨(C10_stores_cover_same_keys 0 (emptyCache 10) (WF_empty 0 10)).1 1 5 60 1,
   (C10_stores_cover_same_keys 0 (emptyCache 10) (WF_empty 0 10)).2.2 2 3 60 2⟩

end Litellm
